import Mathlib

/-! Verification of the volumetric rendering core and adaptive ray sampler of
nerf-pytorch (run_nerf.py). Row-independent tensor operations are embedded as
functions on lists of real numbers (one list per ray); the pixel-selection
policies of the training loop are embedded over rationals and integers, where
every operation of the source is order/floor arithmetic. -/

namespace Nerf

/-! ## Volume compositor: raw2outputs (run_nerf.py, lines 263-306) -/

/-- Logistic sigmoid, torch.sigmoid, applied to the raw color channels. -/
noncomputable def sigmoidR (x : ℝ) : ℝ := 1 / (1 + Real.exp (-x))

/-- Rectifier F.relu, the default act_fn of raw2alpha. -/
noncomputable def reluR (x : ℝ) : ℝ := max x 0

/-- Euclidean norm of a ray direction, torch.norm(rays_d[...,None,:], dim=-1). -/
noncomputable def norm3 (d : ℝ × ℝ × ℝ) : ℝ :=
  Real.sqrt (d.1 ^ 2 + d.2.1 ^ 2 + d.2.2 ^ 2)

/-- Consecutive depth differences dists = z_vals[...,1:] - z_vals[...,:-1]. -/
def zdiffs (z : List ℝ) : List ℝ := List.zipWith (fun b a => b - a) z.tail z

/-- Inter-sample distances: consecutive differences with the 1e10 sentinel
appended for the last sample, then scaled by the norm of the ray direction. -/
noncomputable def distsOf (z : List ℝ) (d : ℝ × ℝ × ℝ) : List ℝ :=
  (zdiffs z ++ [(1e10 : ℝ)]).map (fun t => t * norm3 d)

/-- raw2alpha lambda: 1 - exp(-act_fn(raw) * dists) with act_fn = relu. -/
noncomputable def raw2alpha (sigma dist : ℝ) : ℝ :=
  1 - Real.exp (-(reluR sigma) * dist)

/-- Per-sample alphas of one ray: raw2alpha(raw[...,3] + noise, dists). -/
noncomputable def alphasOf (sigmas noises dists : List ℝ) : List ℝ :=
  List.zipWith raw2alpha (List.zipWith (· + ·) sigmas noises) dists

/-- Exclusive cumulative product: the inclusive cumulative product of the list
prefixed with 1, with the last entry dropped, exactly
torch.cumprod(torch.cat([torch.ones(..), l], -1), -1)[:, :-1]. -/
def exclCumprod (l : List ℝ) : List ℝ := (List.scanl (· * ·) 1 l).dropLast

/-- Per-sample weights of one ray:
weights = alpha * cumprod(cat([1, 1 - alpha + 1e-10]))[:-1]. -/
noncomputable def weightsOf (alphas : List ℝ) : List ℝ :=
  List.zipWith (· * ·) alphas (exclCumprod (alphas.map (fun a => 1 - a + 1e-10)))

theorem length_zdiffs (z : List ℝ) : (zdiffs z).length = z.length - 1 := by
  simp [zdiffs]

theorem length_distsOf (z : List ℝ) (d : ℝ × ℝ × ℝ) (hz : z ≠ []) :
    (distsOf z d).length = z.length := by
  have : 1 ≤ z.length := List.length_pos.mpr hz
  simp [distsOf, length_zdiffs]
  omega

theorem length_exclCumprod (l : List ℝ) : (exclCumprod l).length = l.length := by
  simp [exclCumprod, List.length_scanl]

theorem length_weightsOf (alphas : List ℝ) :
    (weightsOf alphas).length = alphas.length := by
  simp [weightsOf, length_exclCumprod]

theorem length_alphasOf (sigmas noises dists : List ℝ)
    (hs : sigmas.length = dists.length) (hn : noises.length = dists.length) :
    (alphasOf sigmas noises dists).length = dists.length := by
  simp [alphasOf, hs, hn]

/-- Entry i of the scanned product is the initial value times the product of
the first i factors. -/
theorem getD_scanl_mul (l : List ℝ) (a : ℝ) (i : ℕ) (h : i < l.length + 1) :
    (List.scanl (· * ·) a l).getD i 0 = a * (l.take i).prod := by
  induction l generalizing a i with
  | nil =>
      have h' : i < 1 := by simpa using h
      have h0 : i = 0 := by omega
      subst h0
      simp
  | cons x xs ih =>
      cases i with
      | zero => simp
      | succ j =>
          have hj : j < xs.length + 1 := by
            simpa using h
          simp only [List.scanl_cons, List.singleton_append, List.getD_cons_succ]
          rw [ih (a * x) j hj]
          simp [List.take_succ_cons, mul_assoc]

theorem getD_exclCumprod (l : List ℝ) (i : ℕ) (h : i < l.length) :
    (exclCumprod l).getD i 0 = (l.take i).prod := by
  have hlen : i < (List.scanl (· * ·) (1 : ℝ) l).dropLast.length := by
    simpa [List.length_scanl] using h
  have h' : i < (List.scanl (· * ·) (1 : ℝ) l).length := by
    simp [List.length_scanl]; omega
  calc (exclCumprod l).getD i 0
      = (List.scanl (· * ·) (1 : ℝ) l).dropLast[i] := List.getD_eq_getElem _ _ hlen
    _ = (List.scanl (· * ·) (1 : ℝ) l)[i] := List.getElem_dropLast _ _ _
    _ = (List.scanl (· * ·) (1 : ℝ) l).getD i 0 := (List.getD_eq_getElem _ _ h').symm
    _ = 1 * (l.take i).prod := getD_scanl_mul l 1 i (by omega)
    _ = (l.take i).prod := one_mul _

theorem getD_zipWith (f : ℝ → ℝ → ℝ) (l₁ l₂ : List ℝ) (i : ℕ)
    (h₁ : i < l₁.length) (h₂ : i < l₂.length) :
    (List.zipWith f l₁ l₂).getD i 0 = f (l₁.getD i 0) (l₂.getD i 0) := by
  have h : i < (List.zipWith f l₁ l₂).length := by simp [h₁, h₂]
  rw [List.getD_eq_getElem _ _ h, List.getD_eq_getElem _ _ h₁,
    List.getD_eq_getElem _ _ h₂, List.getElem_zipWith]

theorem getD_map (f : ℝ → ℝ) (l : List ℝ) (i : ℕ) (h : i < l.length) :
    (l.map f).getD i 0 = f (l.getD i 0) := by
  have h' : i < (l.map f).length := by simpa using h
  rw [List.getD_eq_getElem _ _ h', List.getD_eq_getElem _ _ h, List.getElem_map]

/-- Prefix products of a list as products over Finset.range. -/
theorem take_prod_eq_range (l : List ℝ) (i : ℕ) (h : i ≤ l.length) :
    (l.take i).prod = ∏ j ∈ Finset.range i, l.getD j 0 := by
  induction i with
  | zero => simp
  | succ k ih =>
      have hk : k < l.length := by omega
      rw [List.prod_take_succ l k hk, ih (by omega), Finset.prod_range_succ,
        List.getD_eq_getElem _ _ hk]

theorem getD_distsOf (z : List ℝ) (d : ℝ × ℝ × ℝ) (i : ℕ) (hi : i < z.length) :
    (distsOf z d).getD i 0 =
      (if i + 1 < z.length then z.getD (i + 1) 0 - z.getD i 0 else 1e10) * norm3 d := by
  have hz : z ≠ [] := by
    intro h
    rw [h] at hi
    simp at hi
  have hlen : i < (zdiffs z ++ [(1e10 : ℝ)]).length := by
    have : 1 ≤ z.length := List.length_pos.mpr hz
    simp [length_zdiffs]
    omega
  rw [distsOf, getD_map _ _ i (by simpa using hlen)]
  congr 1
  by_cases hcase : i + 1 < z.length
  · have hzd : i < (zdiffs z).length := by rw [length_zdiffs]; omega
    rw [if_pos hcase, List.getD_eq_getElem _ _ hlen, List.getElem_append_left hzd]
    have htail : i < z.tail.length := by simp [List.length_tail]; omega
    have hzi : i < z.length := by omega
    rw [List.getD_eq_getElem _ _ (show i + 1 < z.length from hcase),
      List.getD_eq_getElem _ _ hzi]
    simp only [zdiffs]
    rw [List.getElem_zipWith, List.getElem_tail]
  · have hieq : i = z.length - 1 := by omega
    have hzd : (zdiffs z).length ≤ i := by rw [length_zdiffs]; omega
    rw [if_neg hcase, List.getD_eq_getElem _ _ hlen, List.getElem_append_right hzd]
    simp [length_zdiffs]

theorem getD_alphasOf (sigmas noises dists : List ℝ) (i : ℕ)
    (hs : i < sigmas.length) (hn : i < noises.length) (hd : i < dists.length) :
    (alphasOf sigmas noises dists).getD i 0 =
      raw2alpha (sigmas.getD i 0 + noises.getD i 0) (dists.getD i 0) := by
  rw [alphasOf, getD_zipWith _ _ _ i (by simp [hs, hn]) hd,
    getD_zipWith _ _ _ i hs hn]

theorem getD_weightsOf (alphas : List ℝ) (i : ℕ) (h : i < alphas.length) :
    (weightsOf alphas).getD i 0 =
      alphas.getD i 0 * ∏ j ∈ Finset.range i, (1 - alphas.getD j 0 + 1e-10) := by
  have hmap : i < (alphas.map (fun a => 1 - a + 1e-10)).length := by simpa using h
  have hexc : i < (exclCumprod (alphas.map (fun a => 1 - a + 1e-10))).length := by
    rw [length_exclCumprod]; exact hmap
  rw [weightsOf, getD_zipWith _ _ _ i h hexc, getD_exclCumprod _ _ hmap,
    take_prod_eq_range _ _ (le_of_lt hmap)]
  congr 1
  refine Finset.prod_congr rfl (fun j hj => ?_)
  have hji : j < i := Finset.mem_range.mp hj
  rw [getD_map _ _ j (by omega)]

/-- C1: for every ray and every per-sample raw (color, density) input, the
weights of raw2outputs follow the reference formula: inter-sample distances are
consecutive depth differences with a 1e10 sentinel appended for the last sample
and scaled by the Euclidean norm of the ray direction,
alpha_i = 1 - exp(-relu(density_i + noise_i) * dist_i), and
weight_i = alpha_i * prod over j < i of (1 - alpha_j + 1e-10). -/
theorem raw2outputs_weights_formula (sigmas noises z : List ℝ) (d : ℝ × ℝ × ℝ)
    (hs : sigmas.length = z.length) (hn : noises.length = z.length)
    (i : ℕ) (hi : i < z.length) :
    (weightsOf (alphasOf sigmas noises (distsOf z d))).getD i 0 =
      (1 - Real.exp (-(max (sigmas.getD i 0 + noises.getD i 0) 0) *
        ((if i + 1 < z.length then z.getD (i + 1) 0 - z.getD i 0 else 1e10) * norm3 d))) *
      ∏ j ∈ Finset.range i,
        (1 - (1 - Real.exp (-(max (sigmas.getD j 0 + noises.getD j 0) 0) *
          ((if j + 1 < z.length then z.getD (j + 1) 0 - z.getD j 0 else 1e10) * norm3 d)))
          + 1e-10) := by
  have hz : z ≠ [] := by
    intro hh
    rw [hh] at hi
    simp at hi
  have hd : (distsOf z d).length = z.length := length_distsOf z d hz
  have ha : (alphasOf sigmas noises (distsOf z d)).length = z.length := by
    rw [length_alphasOf sigmas noises _ (by omega) (by omega), hd]
  have key : ∀ k, k < z.length →
      (alphasOf sigmas noises (distsOf z d)).getD k 0 =
        1 - Real.exp (-(max (sigmas.getD k 0 + noises.getD k 0) 0) *
          ((if k + 1 < z.length then z.getD (k + 1) 0 - z.getD k 0 else 1e10) * norm3 d)) := by
    intro k hk
    rw [getD_alphasOf sigmas noises _ k (by omega) (by omega) (by omega),
      getD_distsOf z d k hk, raw2alpha, reluR]
  rw [getD_weightsOf _ i (by omega), key i hi]
  congr 1
  refine Finset.prod_congr rfl (fun j hj => ?_)
  have hji : j < i := Finset.mem_range.mp hj
  rw [key j (by omega)]

/-- C1 witness: the formula theorem instantiated at a concrete two-sample ray. -/
theorem raw2outputs_weights_formula_witness :
    ([(1 : ℝ), 2].length = ([0, 1] : List ℝ).length) ∧ (1 < ([0, 1] : List ℝ).length) ∧
    (weightsOf (alphasOf [(1 : ℝ), 2] [0, 0] (distsOf [0, 1] (1, 0, 0)))).getD 1 0 =
      (1 - Real.exp (-(max (([(1 : ℝ), 2]).getD 1 0 + ([(0 : ℝ), 0]).getD 1 0) 0) *
        ((if 1 + 1 < ([0, 1] : List ℝ).length
          then ([(0 : ℝ), 1]).getD (1 + 1) 0 - ([(0 : ℝ), 1]).getD 1 0 else 1e10) *
          norm3 (1, 0, 0)))) *
      ∏ j ∈ Finset.range 1,
        (1 - (1 - Real.exp (-(max (([(1 : ℝ), 2]).getD j 0 + ([(0 : ℝ), 0]).getD j 0) 0) *
          ((if j + 1 < ([0, 1] : List ℝ).length
            then ([(0 : ℝ), 1]).getD (j + 1) 0 - ([(0 : ℝ), 1]).getD j 0 else 1e10) *
            norm3 (1, 0, 0)))) + 1e-10) :=
  ⟨rfl, by norm_num,
    raw2outputs_weights_formula [1, 2] [0, 0] [0, 1] (1, 0, 0) rfl rfl 1 (by norm_num)⟩

/-! ## C2: weight non-negativity and the weight-sum bound -/

theorem scanl_mul_eq_map (l : List ℝ) (a c : ℝ) :
    List.scanl (· * ·) (c * a) l = (List.scanl (· * ·) a l).map (fun x => c * x) := by
  induction l generalizing a with
  | nil => simp
  | cons x xs ih =>
      simp only [List.scanl_cons, List.singleton_append, List.map_cons, List.cons.injEq,
        true_and]
      rw [mul_assoc, ih (a * x)]

theorem exclCumprod_cons (x : ℝ) (l : List ℝ) :
    exclCumprod (x :: l) = 1 :: (exclCumprod l).map (fun y => x * y) := by
  apply List.ext_getElem
  · simp [length_exclCumprod]
  · intro i h1 h2
    have hlen1 : i < (x :: l).length := by
      simpa [length_exclCumprod] using h1
    rw [← List.getD_eq_getElem _ 0 h1, ← List.getD_eq_getElem _ 0 h2,
      getD_exclCumprod _ _ hlen1]
    cases i with
    | zero => simp
    | succ j =>
        have hj : j < l.length := by simpa using hlen1
        rw [List.getD_cons_succ,
          getD_map _ _ j (by rw [length_exclCumprod]; exact hj),
          getD_exclCumprod _ _ hj]
        simp [List.take_succ_cons]

theorem zipWith_mul_map (as l : List ℝ) (c : ℝ) :
    List.zipWith (· * ·) as (l.map (fun y => c * y)) =
      (List.zipWith (· * ·) as l).map (fun y => c * y) := by
  induction as generalizing l with
  | nil => simp
  | cons a as ih =>
      cases l with
      | nil => simp
      | cons x xs => simp [ih xs]; ring

theorem weightsOf_cons (a : ℝ) (as : List ℝ) :
    weightsOf (a :: as) =
      (a : ℝ) :: (weightsOf as).map (fun w => (1 - a + 1e-10) * w) := by
  simp only [weightsOf, List.map_cons, exclCumprod_cons, List.zipWith_cons_cons, mul_one]
  rw [zipWith_mul_map]

theorem sum_map_mulR (c : ℝ) (l : List ℝ) :
    (l.map (fun y => c * y)).sum = c * l.sum := by
  induction l with
  | nil => simp
  | cons x xs ih =>
      simp [ih]
      ring

theorem weightsOf_sum_cons (a : ℝ) (as : List ℝ) :
    (weightsOf (a :: as)).sum = a + (1 - a + 1e-10) * (weightsOf as).sum := by
  rw [weightsOf_cons]
  simp [sum_map_mulR]

theorem weightsOf_nonneg : ∀ (alphas : List ℝ),
    (∀ a ∈ alphas, 0 ≤ a ∧ a ≤ 1) → ∀ w ∈ weightsOf alphas, 0 ≤ w := by
  intro alphas
  induction alphas with
  | nil =>
      intro _ w hw
      simp [weightsOf] at hw
  | cons a as ih =>
      intro h w hw
      rw [weightsOf_cons] at hw
      rcases List.mem_cons.mp hw with hwa | hwm
      · subst hwa
        exact (h w (List.mem_cons_self w as)).1
      · rcases List.mem_map.mp hwm with ⟨w', hw', rfl⟩
        have ha := h a (List.mem_cons_self a as)
        have hw'0 : 0 ≤ w' := ih (fun x hx => h x (List.mem_cons_of_mem a hx)) w' hw'
        have hfac : 0 ≤ 1 - a + 1e-10 := by nlinarith [ha.2]
        positivity

theorem weightsOf_sum_le_pow : ∀ (alphas : List ℝ),
    (∀ a ∈ alphas, 0 ≤ a ∧ a ≤ 1) →
    (weightsOf alphas).sum ≤ (1 + 1e-10) ^ alphas.length := by
  intro alphas
  induction alphas with
  | nil =>
      intro _
      simp [weightsOf]
  | cons a as ih =>
      intro h
      have ha := h a (List.mem_cons_self a as)
      have hS := ih (fun x hx => h x (List.mem_cons_of_mem a hx))
      have hfac0 : (0 : ℝ) ≤ 1 - a + 1e-10 := by nlinarith [ha.2]
      have hfac1 : (1 : ℝ) - a + 1e-10 ≤ 1 + 1e-10 := by nlinarith [ha.1]
      have hpow1 : (1 : ℝ) ≤ (1 + 1e-10) ^ as.length := by
        apply one_le_pow₀
        norm_num
      rw [weightsOf_sum_cons]
      simp only [List.length_cons]
      calc a + (1 - a + 1e-10) * (weightsOf as).sum
          ≤ a + (1 - a + 1e-10) * (1 + 1e-10) ^ as.length := by
            have := mul_le_mul_of_nonneg_left hS hfac0
            linarith
        _ ≤ (1 + 1e-10) ^ (as.length + 1) := by
            rw [pow_succ]
            nlinarith [ha.1, ha.2]

theorem one_add_pow_le (x : ℝ) (hx : 0 ≤ x) (n : ℕ) (h : (n : ℝ) * x ≤ 1 / 2) :
    (1 + x) ^ n ≤ 1 + 2 * n * x := by
  induction n with
  | zero => simp
  | succ m ih =>
      have hm : (m : ℝ) * x ≤ 1 / 2 := by
        have : (m : ℝ) ≤ (m : ℝ) + 1 := by linarith
        calc (m : ℝ) * x ≤ ((m : ℝ) + 1) * x := by nlinarith
          _ ≤ 1 / 2 := by push_cast at h; linarith
      have ihm := ih hm
      have h2mx : 2 * (m : ℝ) * x ≤ 1 := by linarith
      have hx1 : (0 : ℝ) ≤ 1 + x := by linarith
      calc (1 + x) ^ (m + 1) = (1 + x) ^ m * (1 + x) := by rw [pow_succ]
        _ ≤ (1 + 2 * m * x) * (1 + x) := by nlinarith [pow_nonneg hx1 m]
        _ ≤ 1 + 2 * (m + 1 : ℕ) * x := by push_cast; nlinarith

theorem mem_zipWith (f : ℝ → ℝ → ℝ) : ∀ (l₁ l₂ : List ℝ), ∀ x ∈ List.zipWith f l₁ l₂,
    ∃ a ∈ l₁, ∃ b ∈ l₂, x = f a b := by
  intro l₁
  induction l₁ with
  | nil =>
      intro l₂ x hx
      simp at hx
  | cons a as ih =>
      intro l₂ x hx
      cases l₂ with
      | nil => simp at hx
      | cons b bs =>
          rcases List.mem_cons.mp hx with hx0 | hxs
          · exact ⟨a, List.mem_cons_self a as, b, List.mem_cons_self b bs, hx0⟩
          · rcases ih bs x hxs with ⟨a', ha', b', hb', hfb⟩
            exact ⟨a', List.mem_cons_of_mem a ha', b', List.mem_cons_of_mem b hb', hfb⟩

theorem zdiffs_nonneg : ∀ (z : List ℝ), z.Sorted (· ≤ ·) → ∀ t ∈ zdiffs z, 0 ≤ t := by
  intro z
  induction z with
  | nil =>
      intro _ t ht
      simp [zdiffs] at ht
  | cons x xs ih =>
      intro hs t ht
      cases xs with
      | nil => simp [zdiffs] at ht
      | cons y ys =>
          have hxy : x ≤ y := (List.sorted_cons.mp hs).1 y (List.mem_cons_self y ys)
          have hs' : (y :: ys).Sorted (· ≤ ·) := (List.sorted_cons.mp hs).2
          have hcons : zdiffs (x :: y :: ys) = (y - x) :: zdiffs (y :: ys) := by
            simp [zdiffs]
          rw [hcons] at ht
          rcases List.mem_cons.mp ht with ht0 | hts
          · subst ht0
            linarith
          · exact ih hs' t hts

theorem distsOf_nonneg (z : List ℝ) (d : ℝ × ℝ × ℝ) (hz : z.Sorted (· ≤ ·)) :
    ∀ t ∈ distsOf z d, 0 ≤ t := by
  intro t ht
  rcases List.mem_map.mp ht with ⟨u, hu, rfl⟩
  have hnorm : 0 ≤ norm3 d := Real.sqrt_nonneg _
  rcases List.mem_append.mp hu with hul | hur
  · exact mul_nonneg (zdiffs_nonneg z hz u hul) hnorm
  · have : u = 1e10 := by simpa using hur
    subst this
    positivity

theorem raw2alpha_bounds (s t : ℝ) (ht : 0 ≤ t) :
    0 ≤ raw2alpha s t ∧ raw2alpha s t ≤ 1 := by
  have hrelu : 0 ≤ reluR s := le_max_right s 0
  have harg : -(reluR s) * t ≤ 0 := by nlinarith
  have hle : Real.exp (-(reluR s) * t) ≤ 1 := Real.exp_le_one_iff.mpr harg
  have hpos : 0 < Real.exp (-(reluR s) * t) := Real.exp_pos _
  unfold raw2alpha
  constructor <;> linarith

theorem alphasOf_bounds (sigmas noises z : List ℝ) (d : ℝ × ℝ × ℝ)
    (hz : z.Sorted (· ≤ ·)) :
    ∀ a ∈ alphasOf sigmas noises (distsOf z d), 0 ≤ a ∧ a ≤ 1 := by
  intro a ha
  rcases mem_zipWith _ _ _ a ha with ⟨s, _, t, ht, rfl⟩
  exact raw2alpha_bounds s t (distsOf_nonneg z d hz t ht)

/-- C2 (amended): for every ray whose depth samples are non-decreasing (the
order in which render_rays always produces them) and for every raw density
input and per-sample noise, every weight of raw2outputs is non-negative, and
the weight sum is at most (1 + 1e-10)^(sample count) - hence at most 1 + 1e-6
whenever the ray has at most 5000 samples.  (In the program's float32
arithmetic the 1e-10 summand is absorbed below the half-ulp of 1, so there
the sum never exceeds this exact-arithmetic bound.) -/
theorem raw2outputs_weights_bounds (sigmas noises z : List ℝ) (d : ℝ × ℝ × ℝ)
    (hz : z.Sorted (· ≤ ·)) :
    (∀ w ∈ weightsOf (alphasOf sigmas noises (distsOf z d)), 0 ≤ w) ∧
    (weightsOf (alphasOf sigmas noises (distsOf z d))).sum ≤
      (1 + 1e-10) ^ (alphasOf sigmas noises (distsOf z d)).length ∧
    (z.length ≤ 5000 →
      (weightsOf (alphasOf sigmas noises (distsOf z d))).sum ≤ 1 + 1e-6) := by
  have hb := alphasOf_bounds sigmas noises z d hz
  refine ⟨weightsOf_nonneg _ hb, weightsOf_sum_le_pow _ hb, fun hcount => ?_⟩
  have h1 := weightsOf_sum_le_pow _ hb
  have hlen : (alphasOf sigmas noises (distsOf z d)).length ≤ 5000 := by
    have hab : (alphasOf sigmas noises (distsOf z d)).length ≤ (distsOf z d).length := by
      simp only [alphasOf, List.length_zipWith]
      omega
    by_cases hzn : z = []
    · subst hzn
      have hone : (distsOf [] d).length = 1 := by simp [distsOf, zdiffs]
      omega
    · rw [length_distsOf z d hzn] at hab
      omega
  have hpow : ((1 : ℝ) + 1e-10) ^ (alphasOf sigmas noises (distsOf z d)).length ≤
      1 + 2 * (alphasOf sigmas noises (distsOf z d)).length * 1e-10 := by
    apply one_add_pow_le _ (by norm_num)
    have : ((alphasOf sigmas noises (distsOf z d)).length : ℝ) ≤ 5000 := by
      exact_mod_cast hlen
    nlinarith
  have : ((alphasOf sigmas noises (distsOf z d)).length : ℝ) ≤ 5000 := by
    exact_mod_cast hlen
  nlinarith

theorem norm3_e1 : norm3 (1, 0, 0) = 1 := by
  rw [norm3]
  norm_num

theorem norm3_e1' : norm3 (1, (0 : ℝ × ℝ)) = 1 := by
  rw [norm3]
  simp

theorem weightsOf_nil : weightsOf [] = [] := rfl

/-- C2 counterexample: raw2outputs applied to depth samples in decreasing
order (z = [1, 0]) gets a negative first inter-sample distance, so with raw
density 1 and zero noise alpha_0 = 1 - exp(1) < 0 and the first returned
weight is negative, refuting the unconditional claim that every returned
weight is non-negative.  Every quantity here (a difference, exp(1), a
product) is computed identically in the program's float arithmetic, so the
divergence is genuine. -/
theorem raw2outputs_weight_negative_unsorted :
    (weightsOf (alphasOf [(1 : ℝ), 1] [0, 0] (distsOf [1, 0] (1, 0, 0)))).getD 0 0 < 0 := by
  have hlen : (distsOf [(1 : ℝ), 0] (1, 0, 0)).length = 2 := by
    rw [length_distsOf _ _ (by simp)]
    rfl
  have hd : (distsOf [(1 : ℝ), 0] (1, 0, 0)).getD 0 0 = -1 := by
    rw [getD_distsOf _ _ 0 (by norm_num), norm3_e1]
    norm_num
  have ha : (alphasOf [(1 : ℝ), 1] [0, 0] (distsOf [1, 0] (1, 0, 0))).getD 0 0 =
      raw2alpha (1 + 0) (-1) := by
    rw [getD_alphasOf _ _ _ 0 (by norm_num) (by norm_num) (by omega), hd]
    rfl
  have hlena : (alphasOf [(1 : ℝ), 1] [0, 0] (distsOf [1, 0] (1, 0, 0))).length = 2 := by
    rw [length_alphasOf _ _ _ (by rw [hlen]; rfl) (by rw [hlen]; rfl), hlen]
  rw [getD_weightsOf _ 0 (by omega), ha]
  simp only [Finset.range_zero, Finset.prod_empty, mul_one]
  rw [raw2alpha, reluR]
  rw [show max ((1 : ℝ) + 0) 0 = 1 by norm_num]
  have hexp := Real.add_one_le_exp (1 : ℝ)
  have harg : -(1 : ℝ) * (-1) = 1 := by norm_num
  rw [harg]
  linarith

/-- C2 witness: the amended bound theorem instantiated at a concrete sorted
two-sample ray. -/
theorem raw2outputs_weights_bounds_witness :
    ([(0 : ℝ), 1].Sorted (· ≤ ·)) ∧
    ((∀ w ∈ weightsOf (alphasOf [(1 : ℝ), 2] [0, 0] (distsOf [0, 1] (1, 0, 0))), 0 ≤ w) ∧
      (weightsOf (alphasOf [(1 : ℝ), 2] [0, 0] (distsOf [0, 1] (1, 0, 0)))).sum ≤
        (1 + 1e-10) ^ (alphasOf [(1 : ℝ), 2] [0, 0] (distsOf [0, 1] (1, 0, 0))).length ∧
      (([(0 : ℝ), 1]).length ≤ 5000 →
        (weightsOf (alphasOf [(1 : ℝ), 2] [0, 0] (distsOf [0, 1] (1, 0, 0)))).sum ≤
          1 + 1e-6)) :=
  ⟨by norm_num [List.sorted_cons],
    raw2outputs_weights_bounds [1, 2] [0, 0] [0, 1] (1, 0, 0)
      (by norm_num [List.sorted_cons])⟩

/-! ## C4: the disparity map and its 1e-10 guard

Torch float semantics for the expression
disp_map = 1./torch.max(1e-10 * ones, depth_map / torch.sum(weights, -1)):
division by a zero denominator yields NaN (0/0) or a signed infinity,
torch.max propagates NaN and infinities, and 1/inf is 0.  RVal makes the
NaN/Inf outcomes of this expression explicit. -/

inductive RVal where
  | nan : RVal
  | pinf : RVal
  | ninf : RVal
  | val : ℝ → RVal

/-- Float division x / y: a real when y is nonzero, NaN for 0/0, and a signed
infinity for x/0 with x nonzero. -/
noncomputable def fdiv (x y : ℝ) : RVal :=
  if y = 0 then (if x = 0 then RVal.nan else if 0 < x then RVal.pinf else RVal.ninf)
  else RVal.val (x / y)

/-- Elementwise torch.max(c, v): if one of the compared elements is NaN, NaN
is returned; +inf dominates any real; max(c, -inf) = c. -/
noncomputable def fmaxR (c : ℝ) : RVal → RVal
  | RVal.nan => RVal.nan
  | RVal.pinf => RVal.pinf
  | RVal.ninf => RVal.val c
  | RVal.val x => RVal.val (max c x)

/-- Float reciprocal 1/v: 1/(+-inf) = 0, 1/0 = +inf, NaN propagates. -/
noncomputable def finvR : RVal → RVal
  | RVal.nan => RVal.nan
  | RVal.pinf => RVal.val 0
  | RVal.ninf => RVal.val 0
  | RVal.val x => if x = 0 then RVal.pinf else RVal.val (1 / x)

/-- depth_map = torch.sum(weights * z_vals, -1) for one ray. -/
noncomputable def depthMapOf (weights z : List ℝ) : ℝ :=
  (List.zipWith (· * ·) weights z).sum

/-- acc_map = torch.sum(weights, -1) for one ray. -/
noncomputable def accMapOf (weights : List ℝ) : ℝ := weights.sum

/-- disp_map = 1./torch.max(1e-10 * ones_like(depth_map), depth_map / acc_map). -/
noncomputable def dispMapOf (weights z : List ℝ) : RVal :=
  finvR (fmaxR 1e-10 (fdiv (depthMapOf weights z) (accMapOf weights)))

theorem raw2alpha_nonpos (s t : ℝ) (hs : s ≤ 0) : raw2alpha s t = 0 := by
  rw [raw2alpha, reluR, max_eq_right hs]
  simp

/-- C4 counterexample: with two samples of negative raw density and zero noise
every weight is zero, the weight sum is exactly zero, and the disparity is NaN:
depth/sum is the NaN division 0/0, which torch.max propagates past the 1e-10
guard, so the guard does not prevent an undefined disparity at zero total
weight. -/
theorem disp_map_nan_at_zero_weight :
    accMapOf (weightsOf (alphasOf [(-1 : ℝ), -1] [0, 0] (distsOf [0, 1] (1, 0, 0)))) = 0 ∧
    dispMapOf (weightsOf (alphasOf [(-1 : ℝ), -1] [0, 0] (distsOf [0, 1] (1, 0, 0))))
      [0, 1] = RVal.nan := by
  have hd : distsOf [(0 : ℝ), 1] (1, 0, 0) = [1, 1e10] := by
    simp [distsOf, zdiffs, norm3_e1, norm3_e1']
  have ha : alphasOf [(-1 : ℝ), -1] [0, 0] (distsOf [0, 1] (1, 0, 0)) = [0, 0] := by
    rw [hd, alphasOf]
    simp only [List.zipWith_cons_cons, List.zipWith_nil_right]
    rw [raw2alpha_nonpos _ _ (by norm_num), raw2alpha_nonpos _ _ (by norm_num)]
  have hw : weightsOf (alphasOf [(-1 : ℝ), -1] [0, 0] (distsOf [0, 1] (1, 0, 0))) = [0, 0] := by
    rw [ha, weightsOf_cons, weightsOf_cons, weightsOf_nil]
    simp
  rw [hw]
  constructor
  · simp [accMapOf]
  · have hdep : depthMapOf [(0 : ℝ), 0] [0, 1] = 0 := by
      simp [depthMapOf]
    have hacc : accMapOf [(0 : ℝ), 0] = 0 := by
      simp [accMapOf]
    rw [dispMapOf, hdep, hacc, fdiv]
    simp [fmaxR, finvR]

/-- C4 (amended): disparity is computed as 1/max(1e-10, depth/acc).  Whenever
the weight sum is nonzero the guarded maximum is at least 1e-10, so the
disparity is a well-defined positive real at most 1e10 (no division by zero,
no NaN/Inf); with a weight sum of exactly zero the division is 0/0 = NaN
(previous theorem) and the guard does not prevent it. -/
theorem disp_map_guard (weights z : List ℝ) (hacc : accMapOf weights ≠ 0) :
    dispMapOf weights z =
      RVal.val (1 / max 1e-10 (depthMapOf weights z / accMapOf weights)) ∧
    ∃ x : ℝ, dispMapOf weights z = RVal.val x ∧ 0 < x ∧ x ≤ 1e10 := by
  have hq : fdiv (depthMapOf weights z) (accMapOf weights) =
      RVal.val (depthMapOf weights z / accMapOf weights) := by
    rw [fdiv, if_neg hacc]
  have hmaxpos : (0 : ℝ) < max 1e-10 (depthMapOf weights z / accMapOf weights) := by
    have : (0 : ℝ) < 1e-10 := by norm_num
    exact lt_of_lt_of_le this (le_max_left _ _)
  have hdisp : dispMapOf weights z =
      RVal.val (1 / max 1e-10 (depthMapOf weights z / accMapOf weights)) := by
    rw [dispMapOf, hq]
    simp only [fmaxR, finvR]
    rw [if_neg (ne_of_gt hmaxpos)]
  refine ⟨hdisp, 1 / max 1e-10 (depthMapOf weights z / accMapOf weights), hdisp, ?_, ?_⟩
  · positivity
  · rw [div_le_iff₀ hmaxpos]
    have h10 : (1e-10 : ℝ) ≤ max 1e-10 (depthMapOf weights z / accMapOf weights) :=
      le_max_left _ _
    nlinarith

/-- C4 witness: the guard theorem instantiated at a one-sample ray with weight
sum 1. -/
theorem disp_map_guard_witness :
    accMapOf [(1 : ℝ)] ≠ 0 ∧
    (dispMapOf [(1 : ℝ)] [2] =
      RVal.val (1 / max 1e-10 (depthMapOf [(1 : ℝ)] [2] / accMapOf [(1 : ℝ)])) ∧
    ∃ x : ℝ, dispMapOf [(1 : ℝ)] [2] = RVal.val x ∧ 0 < x ∧ x ≤ 1e10) :=
  ⟨by norm_num [accMapOf], disp_map_guard [1] [2] (by norm_num [accMapOf])⟩

/-! ## Stratified sampler (render_rays, lines 358-380) -/

/-- torch.linspace(0., 1., steps=N) at index i, i.e. i/(N-1); for N = 1 torch
returns [0.], matching the Lean convention 0/0 = 0. -/
noncomputable def tLin (N i : ℕ) : ℝ := (i : ℝ) / ((N : ℝ) - 1)

/-- Depth samples z_vals = near * (1 - t_vals) + far * t_vals (lindisp off). -/
noncomputable def zLin (near far : ℝ) (N i : ℕ) : ℝ :=
  near * (1 - tLin N i) + far * tLin N i

/-- Depth samples z_vals = 1/(1/near * (1 - t_vals) + 1/far * t_vals)
(lindisp on). -/
noncomputable def zDisp (near far : ℝ) (N i : ℕ) : ℝ :=
  1 / ((1 / near) * (1 - tLin N i) + (1 / far) * tLin N i)

/-- mids = .5 * (z_vals[...,1:] + z_vals[...,:-1]) at index i. -/
noncomputable def zMid (z : ℕ → ℝ) (i : ℕ) : ℝ := (z i + z (i + 1)) / 2

/-- upper = cat([mids, z_vals[...,-1:]]): mids i for i+1 < N, else the last
sample. -/
noncomputable def zUpper (z : ℕ → ℝ) (N i : ℕ) : ℝ :=
  if i + 1 < N then zMid z i else z (N - 1)

/-- lower = cat([z_vals[...,:1], mids]): the first sample at index 0, else
mids (i-1). -/
noncomputable def zLower (z : ℕ → ℝ) (i : ℕ) : ℝ :=
  if i = 0 then z 0 else zMid z (i - 1)

/-- Perturbed samples z_vals = lower + (upper - lower) * t_rand. -/
noncomputable def zJitter (z : ℕ → ℝ) (N : ℕ) (t : ℕ → ℝ) (i : ℕ) : ℝ :=
  zLower z i + (zUpper z N i - zLower z i) * t i

theorem tLin_bounds (N i : ℕ) (hi : i < N) : 0 ≤ tLin N i ∧ tLin N i ≤ 1 := by
  rcases Nat.lt_or_ge N 2 with hN | hN
  · have hi0 : i = 0 := by omega
    subst hi0
    simp [tLin]
  · have hden : (0 : ℝ) < (N : ℝ) - 1 := by
      have : (2 : ℝ) ≤ (N : ℝ) := by exact_mod_cast hN
      linarith
    unfold tLin
    constructor
    · exact div_nonneg (by positivity) (le_of_lt hden)
    · rw [div_le_one hden]
      have : (i : ℝ) + 1 ≤ (N : ℝ) := by exact_mod_cast hi
      linarith

theorem tLin_mono (N i : ℕ) (hi : i + 1 < N) : tLin N i ≤ tLin N (i + 1) := by
  have hden : (0 : ℝ) < (N : ℝ) - 1 := by
    have : (2 : ℝ) ≤ (N : ℝ) := by exact_mod_cast (by omega : 2 ≤ N)
    linarith
  unfold tLin
  gcongr
  have h1 : (i : ℝ) ≤ (i : ℝ) + 1 := by linarith
  exact_mod_cast h1

theorem zLin_range (near far : ℝ) (N i : ℕ) (hnf : near ≤ far) (hi : i < N) :
    near ≤ zLin near far N i ∧ zLin near far N i ≤ far := by
  obtain ⟨h0, h1⟩ := tLin_bounds N i hi
  unfold zLin
  constructor <;> nlinarith

theorem zLin_mono (near far : ℝ) (N i : ℕ) (hnf : near ≤ far) (hi : i + 1 < N) :
    zLin near far N i ≤ zLin near far N (i + 1) := by
  have ht := tLin_mono N i hi
  unfold zLin
  nlinarith

theorem zDisp_range (near far : ℝ) (N i : ℕ) (h0 : 0 < near) (hnf : near ≤ far)
    (hi : i < N) : near ≤ zDisp near far N i ∧ zDisp near far N i ≤ far := by
  obtain ⟨ht0, ht1⟩ := tLin_bounds N i hi
  have hfar : 0 < far := lt_of_lt_of_le h0 hnf
  have hnn : (0 : ℝ) < 1 / near := by positivity
  have hff : (0 : ℝ) < 1 / far := by positivity
  have hcmp : 1 / far ≤ 1 / near := by
    rw [div_le_div_iff₀ hfar h0]
    linarith
  have hlo : 1 / far ≤ (1 / near) * (1 - tLin N i) + (1 / far) * tLin N i := by
    nlinarith
  have hhi : (1 / near) * (1 - tLin N i) + (1 / far) * tLin N i ≤ 1 / near := by
    nlinarith
  have hdenpos : (0 : ℝ) < (1 / near) * (1 - tLin N i) + (1 / far) * tLin N i :=
    lt_of_lt_of_le hff hlo
  unfold zDisp
  constructor
  · calc near = 1 / (1 / near) := by field_simp
      _ ≤ 1 / ((1 / near) * (1 - tLin N i) + (1 / far) * tLin N i) := by
          apply one_div_le_one_div_of_le hdenpos hhi
  · calc 1 / ((1 / near) * (1 - tLin N i) + (1 / far) * tLin N i)
        ≤ 1 / (1 / far) := one_div_le_one_div_of_le hff hlo
      _ = far := by field_simp

theorem zDisp_mono (near far : ℝ) (N i : ℕ) (h0 : 0 < near) (hnf : near ≤ far)
    (hi : i + 1 < N) : zDisp near far N i ≤ zDisp near far N (i + 1) := by
  have ht := tLin_mono N i hi
  obtain ⟨ht0, ht1⟩ := tLin_bounds N (i + 1) hi
  obtain ⟨hs0, hs1⟩ := tLin_bounds N i (by omega)
  have hfar : 0 < far := lt_of_lt_of_le h0 hnf
  have hcmp : 1 / far ≤ 1 / near := by
    rw [div_le_div_iff₀ hfar h0]
    linarith
  have hff : (0 : ℝ) < 1 / far := by positivity
  have hlo : 1 / far ≤ (1 / near) * (1 - tLin N (i + 1)) + (1 / far) * tLin N (i + 1) := by
    nlinarith
  have hdenpos : (0 : ℝ) <
      (1 / near) * (1 - tLin N (i + 1)) + (1 / far) * tLin N (i + 1) :=
    lt_of_lt_of_le hff hlo
  have hdec : (1 / near) * (1 - tLin N (i + 1)) + (1 / far) * tLin N (i + 1) ≤
      (1 / near) * (1 - tLin N i) + (1 / far) * tLin N i := by
    nlinarith
  unfold zDisp
  exact one_div_le_one_div_of_le hdenpos hdec

theorem zLower_le_zUpper (z : ℕ → ℝ) (N i : ℕ)
    (hmono : ∀ j, j + 1 < N → z j ≤ z (j + 1)) (hi : i < N) :
    zLower z i ≤ zUpper z N i := by
  by_cases h0 : i = 0
  · subst h0
    by_cases hN : 0 + 1 < N
    · have hm := hmono 0 hN
      unfold zLower zUpper zMid
      rw [if_pos rfl, if_pos hN]
      linarith
    · have hN1 : N = 1 := by omega
      subst hN1
      unfold zLower zUpper zMid
      norm_num
  · have hpred : (i - 1) + 1 = i := by omega
    by_cases hN : i + 1 < N
    · have h1 := hmono (i - 1) (by omega)
      have h2 := hmono i hN
      rw [hpred] at h1
      unfold zLower zUpper zMid
      rw [if_neg h0, if_pos hN, hpred]
      linarith
    · have hlast : i = N - 1 := by omega
      have h1 := hmono (i - 1) (by omega)
      rw [hpred] at h1
      unfold zLower zUpper zMid
      rw [if_neg h0, if_neg hN, hpred, ← hlast]
      linarith

theorem zLower_ge (z : ℕ → ℝ) (near : ℝ) (N i : ℕ)
    (hlo : ∀ j, j < N → near ≤ z j) (hi : i < N) : near ≤ zLower z i := by
  unfold zLower zMid
  by_cases h0 : i = 0
  · subst h0
    simpa using hlo 0 hi
  · have hpred : (i - 1) + 1 = i := by omega
    have h1 := hlo (i - 1) (by omega)
    have h2 := hlo i hi
    rw [hpred] at *
    simp only [if_neg h0]
    rw [hpred]
    linarith

theorem zUpper_le (z : ℕ → ℝ) (far : ℝ) (N i : ℕ)
    (hhi : ∀ j, j < N → z j ≤ far) (hi : i < N) : zUpper z N i ≤ far := by
  unfold zUpper zMid
  by_cases hN : i + 1 < N
  · have h1 := hhi i (by omega)
    have h2 := hhi (i + 1) hN
    simp only [if_pos hN]
    linarith
  · have h1 := hhi (N - 1) (by omega)
    simp only [if_neg hN]
    exact h1

/-- Midpoint-bounded stratification: for any non-decreasing in-range depth
sequence and any jitter draws in [0,1], the perturbed samples stay in
[near, far] and non-decreasing (adjacent intervals share the midpoint
boundary, which prevents crossing). -/
theorem zJitter_bounds (z : ℕ → ℝ) (N : ℕ) (t : ℕ → ℝ) (near far : ℝ)
    (hmono : ∀ j, j + 1 < N → z j ≤ z (j + 1))
    (hlo : ∀ j, j < N → near ≤ z j) (hhi : ∀ j, j < N → z j ≤ far)
    (ht : ∀ j, 0 ≤ t j ∧ t j ≤ 1) :
    (∀ i, i < N → near ≤ zJitter z N t i ∧ zJitter z N t i ≤ far) ∧
    (∀ i, i + 1 < N → zJitter z N t i ≤ zJitter z N t (i + 1)) := by
  have hbetween : ∀ i, i < N →
      zLower z i ≤ zJitter z N t i ∧ zJitter z N t i ≤ zUpper z N i := by
    intro i hi
    have hlu := zLower_le_zUpper z N i hmono hi
    obtain ⟨ht0, ht1⟩ := ht i
    unfold zJitter
    constructor
    · nlinarith
    · nlinarith
  constructor
  · intro i hi
    obtain ⟨hb1, hb2⟩ := hbetween i hi
    exact ⟨le_trans (zLower_ge z near N i hlo hi) hb1,
      le_trans hb2 (zUpper_le z far N i hhi hi)⟩
  · intro i hi
    obtain ⟨_, hb2⟩ := hbetween i (by omega)
    obtain ⟨hb3, _⟩ := hbetween (i + 1) hi
    have hkey : zUpper z N i = zLower z (i + 1) := by
      unfold zUpper zLower
      simp only [if_pos hi, if_neg (Nat.succ_ne_zero i), Nat.add_sub_cancel]
    rw [hkey] at hb2
    exact le_trans hb2 hb3

/-- C6: the stratified depth samples of render_rays are non-decreasing and lie
within [near, far] before jitter (both for linear-in-depth and, when near > 0,
linear-in-disparity parameterization), and for any jitter draws in [0,1] the
perturbed samples (each moved within its own midpoint-bounded interval, with
the first and last interval clamped to the nominal first and last sample)
remain non-decreasing and within [near, far]. -/
theorem stratified_samples_sorted_in_range (near far : ℝ) (N : ℕ) (t : ℕ → ℝ)
    (hnf : near ≤ far) (ht : ∀ j, 0 ≤ t j ∧ t j ≤ 1) :
    (∀ i, i < N → near ≤ zLin near far N i ∧ zLin near far N i ≤ far) ∧
    (∀ i, i + 1 < N → zLin near far N i ≤ zLin near far N (i + 1)) ∧
    (∀ i, i < N → near ≤ zJitter (zLin near far N) N t i ∧
      zJitter (zLin near far N) N t i ≤ far) ∧
    (∀ i, i + 1 < N → zJitter (zLin near far N) N t i ≤
      zJitter (zLin near far N) N t (i + 1)) ∧
    (0 < near →
      (∀ i, i < N → near ≤ zDisp near far N i ∧ zDisp near far N i ≤ far) ∧
      (∀ i, i + 1 < N → zDisp near far N i ≤ zDisp near far N (i + 1)) ∧
      (∀ i, i < N → near ≤ zJitter (zDisp near far N) N t i ∧
        zJitter (zDisp near far N) N t i ≤ far) ∧
      (∀ i, i + 1 < N → zJitter (zDisp near far N) N t i ≤
        zJitter (zDisp near far N) N t (i + 1))) := by
  have hLinR : ∀ i, i < N → near ≤ zLin near far N i ∧ zLin near far N i ≤ far :=
    fun i hi => zLin_range near far N i hnf hi
  have hLinM : ∀ i, i + 1 < N → zLin near far N i ≤ zLin near far N (i + 1) :=
    fun i hi => zLin_mono near far N i hnf hi
  obtain ⟨hJ1, hJ2⟩ := zJitter_bounds (zLin near far N) N t near far hLinM
    (fun j hj => (hLinR j hj).1) (fun j hj => (hLinR j hj).2) ht
  refine ⟨hLinR, hLinM, hJ1, hJ2, fun h0 => ?_⟩
  have hDR : ∀ i, i < N → near ≤ zDisp near far N i ∧ zDisp near far N i ≤ far :=
    fun i hi => zDisp_range near far N i h0 hnf hi
  have hDM : ∀ i, i + 1 < N → zDisp near far N i ≤ zDisp near far N (i + 1) :=
    fun i hi => zDisp_mono near far N i h0 hnf hi
  obtain ⟨hD1, hD2⟩ := zJitter_bounds (zDisp near far N) N t near far hDM
    (fun j hj => (hDR j hj).1) (fun j hj => (hDR j hj).2) ht
  exact ⟨hDR, hDM, hD1, hD2⟩

/-- C6 witness: the sorted-and-in-range theorem instantiated at near 1, far 2,
three samples and constant jitter draw one half, checked at concrete indices. -/
theorem stratified_samples_witness :
    ((1 : ℝ) ≤ 2) ∧ (∀ j : ℕ, 0 ≤ ((fun _ => (1 : ℝ) / 2) j) ∧
      ((fun _ => (1 : ℝ) / 2) j) ≤ 1) ∧
    (1 ≤ zLin 1 2 3 1 ∧ zLin 1 2 3 1 ≤ 2) ∧
    (zJitter (zLin 1 2 3) 3 (fun _ => 1 / 2) 0 ≤
      zJitter (zLin 1 2 3) 3 (fun _ => 1 / 2) 1) := by
  have h := stratified_samples_sorted_in_range 1 2 3 (fun _ => 1 / 2)
    (by norm_num) (fun j => by norm_num)
  exact ⟨by norm_num, fun j => by norm_num,
    h.1 1 (by norm_num), h.2.2.2.1 0 (by norm_num)⟩

/-! ## Per-ray rendering pipeline: render_rays (lines 309-419), raw2outputs
with its full outputs, and the chunking executors batchify (lines 28-35) and
batchify_rays (lines 55-67). -/

/-- Raw network output for one sample: (color pre-activation triple, density
pre-activation). -/
def Raw4 : Type := (ℝ × ℝ × ℝ) × ℝ

/-- One parsed row of the ray batch of render_rays: origin ray_batch[:,0:3],
direction ray_batch[:,3:6], near/far bounds ray_batch[:,6:8], and the
trailing unit view direction when present. -/
structure Ray where
  o : ℝ × ℝ × ℝ
  d : ℝ × ℝ × ℝ
  near : ℝ
  far : ℝ
  viewdir : ℝ × ℝ × ℝ

/-- Configuration knobs of render_rays. -/
structure RenderCfg where
  Nsamples : ℕ
  lindisp : Bool
  perturb : Bool
  Nimportance : ℕ
  rawNoiseStd : ℝ
  whiteBkgd : Bool
  pytest : Bool

/-- Per-ray view of the ret dict of render_rays; the coarse auxiliary keys
rgb0/disp0/acc0/z_std are present only in the hierarchical branch. -/
structure RayOut where
  rgb : ℝ × ℝ × ℝ
  disp : RVal
  acc : ℝ
  weights : List ℝ
  depth : ℝ
  rgb0 : Option (ℝ × ℝ × ℝ)
  disp0 : Option RVal
  acc0 : Option ℝ
  zstd : Option ℝ

/-- rgb = torch.sigmoid(raw[...,:3]) per sample. -/
noncomputable def rgbsOf (raw : List Raw4) : List (ℝ × ℝ × ℝ) :=
  raw.map (fun rv => (sigmoidR rv.1.1, sigmoidR rv.1.2.1, sigmoidR rv.1.2.2))

/-- rgb_map = torch.sum(weights[...,None] * rgb, -2) for one ray. -/
noncomputable def rgbMapOf (weights : List ℝ) (rgbs : List (ℝ × ℝ × ℝ)) :
    ℝ × ℝ × ℝ :=
  ((List.zipWith (fun w c => w * c.1) weights rgbs).sum,
   (List.zipWith (fun w c => w * c.2.1) weights rgbs).sum,
   (List.zipWith (fun w c => w * c.2.2) weights rgbs).sum)

/-- Full per-ray raw2outputs: (rgb_map, disp_map, acc_map, weights, depth_map),
with the white-background composite rgb_map + (1 - acc_map) when white_bkgd. -/
noncomputable def raw2outputs (raw : List Raw4) (z : List ℝ) (d : ℝ × ℝ × ℝ)
    (noise : List ℝ) (whiteBkgd : Bool) :
    (ℝ × ℝ × ℝ) × RVal × ℝ × List ℝ × ℝ :=
  let alphas := alphasOf (raw.map (fun rv => rv.2)) noise (distsOf z d)
  let weights := weightsOf alphas
  let rgbm := rgbMapOf weights (rgbsOf raw)
  let acc := accMapOf weights
  let rgbFinal := if whiteBkgd then
      (rgbm.1 + (1 - acc), rgbm.2.1 + (1 - acc), rgbm.2.2 + (1 - acc))
    else rgbm
  (rgbFinal, dispMapOf weights z, acc, weights, depthMapOf weights z)

/-- Per-sample noise added to the raw density: zero when raw_noise_std is not
positive, otherwise a torch.randn draw scaled by the std, overwritten in
pytest mode by the reseeded numpy stream read row-major over the
(ray, sample) grid. -/
noncomputable def noiseAt (cfg : RenderCfg) (npStream : ℕ → ℝ)
    (torchN : ℕ → ℕ → ℝ) (nSamp i j : ℕ) : ℝ :=
  if 0 < cfg.rawNoiseStd then
    (if cfg.pytest then npStream (i * nSamp + j) else torchN i j) * cfg.rawNoiseStd
  else 0

/-- Jitter draw t_rand for ray i, sample j: torch.rand, overwritten in pytest
mode by the reseeded numpy stream read row-major. -/
noncomputable def tRandAt (cfg : RenderCfg) (npStream : ℕ → ℝ)
    (torchT : ℕ → ℕ → ℝ) (i j : ℕ) : ℝ :=
  if cfg.pytest then npStream (i * cfg.Nsamples + j) else torchT i j

/-- Base (unjittered) depth samples: linear in depth, or linear in inverse
depth when lindisp. -/
noncomputable def zBase (cfg : RenderCfg) (r : Ray) (i : ℕ) : ℝ :=
  if cfg.lindisp then zDisp r.near r.far cfg.Nsamples i
  else zLin r.near r.far cfg.Nsamples i

/-- Coarse depth samples of render_rays for ray index i: midpoint-stratified
jitter when perturb > 0, the base samples otherwise. -/
noncomputable def coarseZ (cfg : RenderCfg) (npStream : ℕ → ℝ)
    (torchT : ℕ → ℕ → ℝ) (i : ℕ) (r : Ray) : List ℝ :=
  (List.range cfg.Nsamples).map (fun j =>
    if cfg.perturb then
      zJitter (zBase cfg r) cfg.Nsamples (tRandAt cfg npStream torchT i) j
    else zBase cfg r j)

/-- pts = rays_o + rays_d * z_vals for one sample. -/
noncomputable def ptAt (r : Ray) (zv : ℝ) : ℝ × ℝ × ℝ :=
  (r.o.1 + r.d.1 * zv, r.o.2.1 + r.d.2.1 * zv, r.o.2.2 + r.d.2.2 * zv)

/-- z_vals_mid = .5 * (z_vals[...,1:] + z_vals[...,:-1]). -/
noncomputable def midsList (z : List ℝ) : List ℝ :=
  List.zipWith (fun b a => (b + a) / 2) z.tail z

/-- weights[..., 1:-1]: the weights with the first and last samples dropped. -/
def interiorList (w : List ℝ) : List ℝ := w.tail.dropLast

/-- torch.std(z_samples, unbiased=False): population standard deviation. -/
noncomputable def stdList (l : List ℝ) : ℝ :=
  Real.sqrt ((l.map (fun x => (x - l.sum / l.length) ^ 2)).sum / l.length)

/-- Coarse per-ray noise vector, shape raw[...,3].shape = (N_rays, N_samples). -/
noncomputable def coarseNoise (cfg : RenderCfg) (npStream : ℕ → ℝ)
    (torchN : ℕ → ℕ → ℝ) (i : ℕ) : List ℝ :=
  (List.range cfg.Nsamples).map (fun j => noiseAt cfg npStream torchN cfg.Nsamples i j)

/-- The coarse compositing pass of render_rays for ray index i. -/
noncomputable def coarseComp (cfg : RenderCfg)
    (nq : (ℝ × ℝ × ℝ) → (ℝ × ℝ × ℝ) → Raw4) (npStream : ℕ → ℝ)
    (torchT torchN : ℕ → ℕ → ℝ) (i : ℕ) (r : Ray) :
    (ℝ × ℝ × ℝ) × RVal × ℝ × List ℝ × ℝ :=
  raw2outputs ((coarseZ cfg npStream torchT i r).map (fun zv => nq (ptAt r zv) r.viewdir))
    (coarseZ cfg npStream torchT i r) r.d (coarseNoise cfg npStream torchN i) cfg.whiteBkgd

/-- The merged fine depth sequence: torch.sort(torch.cat([z_vals, z_samples])). -/
noncomputable def mergedZ (z zsamples : List ℝ) : List ℝ :=
  List.insertionSort (· ≤ ·) (z ++ zsamples)

/-- The per-ray semantics of render_rays: coarse stratified sampling, network
query, compositing; when N_importance > 0 additionally the importance
resampling through sample_pdf (a function of run_nerf_helpers, passed in as a
parameter) applied to the sample midpoints and the interior coarse weights,
the ascending merge of coarse and resampled depths, a second query against
the fine network, a second compositing pass, and the coarse outputs retained
as rgb0/disp0/acc0 with the sample standard deviation z_std. -/
noncomputable def renderRay (cfg : RenderCfg)
    (nq nqFine : (ℝ × ℝ × ℝ) → (ℝ × ℝ × ℝ) → Raw4)
    (samplePdf : List ℝ → List ℝ → ℕ → Bool → List ℝ)
    (npStream : ℕ → ℝ) (torchT torchN torchNFine : ℕ → ℕ → ℝ)
    (i : ℕ) (r : Ray) : RayOut :=
  let z := coarseZ cfg npStream torchT i r
  let c := coarseComp cfg nq npStream torchT torchN i r
  if cfg.Nimportance = 0 then
    { rgb := c.1, disp := c.2.1, acc := c.2.2.1, weights := c.2.2.2.1,
      depth := c.2.2.2.2, rgb0 := none, disp0 := none, acc0 := none, zstd := none }
  else
    let zsamples := samplePdf (midsList z) (interiorList c.2.2.2.1)
      cfg.Nimportance (!cfg.perturb)
    let zfine := mergedZ z zsamples
    let rawF := zfine.map (fun zv => nqFine (ptAt r zv) r.viewdir)
    let noiseF := (List.range zfine.length).map
      (fun j => noiseAt cfg npStream torchNFine zfine.length i j)
    let f := raw2outputs rawF zfine r.d noiseF cfg.whiteBkgd
    { rgb := f.1, disp := f.2.1, acc := f.2.2.1, weights := f.2.2.2.1,
      depth := f.2.2.2.2, rgb0 := some c.1, disp0 := some c.2.1,
      acc0 := some c.2.2.1, zstd := some (stdList zsamples) }

/-- Indexed map: the batched tensor code of render_rays is row-independent,
so the batch semantics is the map of renderRay over rays with their row
indices (the indices matter only for the pytest random streams). -/
def mapWithIndex {α β : Type} (f : ℕ → α → β) : ℕ → List α → List β
  | _, [] => []
  | i, x :: xs => f i x :: mapWithIndex f (i + 1) xs

/-- render_rays on a ray batch. -/
noncomputable def render_rays (cfg : RenderCfg)
    (nq nqFine : (ℝ × ℝ × ℝ) → (ℝ × ℝ × ℝ) → Raw4)
    (samplePdf : List ℝ → List ℝ → ℕ → Bool → List ℝ)
    (npStream : ℕ → ℝ) (torchT torchN torchNFine : ℕ → ℕ → ℝ)
    (rays : List Ray) : List RayOut :=
  mapWithIndex (renderRay cfg nq nqFine samplePdf npStream torchT torchN torchNFine)
    0 rays

/-- Slices inputs[i:i+chunk] for i in range(0, len(inputs), chunk). -/
def chunksOf {α : Type} (c : ℕ) : List α → List (List α)
  | [] => []
  | x :: xs =>
      if h : c = 0 then []
      else (x :: xs).take c :: chunksOf c ((x :: xs).drop c)
termination_by l => l.length
decreasing_by
  have h1 : 0 < c := Nat.pos_of_ne_zero h
  simp [List.length_drop]
  omega

/-- batchify: torch.cat([fn(inputs[i:i+chunk]) for i in range(0, n, chunk)]). -/
def batchify {α β : Type} (fn : List α → List β) (chunk : ℕ) (inputs : List α) :
    List β :=
  ((chunksOf chunk inputs).map fn).flatten

/-- batchify_rays: render chunk slices of the flat ray batch and concatenate
the per-key results in order. -/
noncomputable def batchify_rays (chunk : ℕ) (renderFn : List Ray → List RayOut)
    (rays : List Ray) : List RayOut :=
  ((chunksOf chunk rays).map renderFn).flatten

theorem chunksOf_flatten {α : Type} (c : ℕ) (hc : 0 < c) : ∀ (xs : List α),
    (chunksOf c xs).flatten = xs := by
  have key : ∀ (n : ℕ) (xs : List α), xs.length ≤ n →
      (chunksOf c xs).flatten = xs := by
    intro n
    induction n with
    | zero =>
        intro xs hlen
        have hnil : xs = [] := List.eq_nil_of_length_eq_zero (by omega)
        subst hnil
        simp [chunksOf]
    | succ m ih =>
        intro xs hlen
        cases xs with
        | nil => simp [chunksOf]
        | cons x l =>
            rw [chunksOf, dif_neg (Nat.pos_iff_ne_zero.mp hc)]
            have hdrop : ((x :: l).drop c).length ≤ m := by
              simp only [List.length_drop, List.length_cons] at *
              omega
            rw [List.flatten_cons, ih _ hdrop, List.take_append_drop]
  exact fun xs => key xs.length xs le_rfl

theorem batchify_map {α β : Type} (g : α → β) (c : ℕ) (hc : 0 < c)
    (inputs : List α) : batchify (List.map g) c inputs = inputs.map g := by
  rw [batchify, ← List.map_flatten, chunksOf_flatten c hc]

theorem mapWithIndex_eq_map {α β : Type} (f : ℕ → α → β) (g : α → β)
    (hfg : ∀ i x, f i x = g x) : ∀ (k : ℕ) (xs : List α),
    mapWithIndex f k xs = xs.map g := by
  intro k xs
  induction xs generalizing k with
  | nil => rfl
  | cons x l ih => simp [mapWithIndex, hfg, ih]

/-- With jitter off and zero noise std, renderRay does not depend on the row
index or on any of the random streams. -/
theorem renderRay_deterministic (cfg : RenderCfg) (hper : cfg.perturb = false)
    (hstd : cfg.rawNoiseStd = 0)
    (nq nqFine : (ℝ × ℝ × ℝ) → (ℝ × ℝ × ℝ) → Raw4)
    (samplePdf : List ℝ → List ℝ → ℕ → Bool → List ℝ)
    (npStream npStream' : ℕ → ℝ) (torchT torchN torchNFine : ℕ → ℕ → ℝ)
    (torchT' torchN' torchNFine' : ℕ → ℕ → ℝ) (i i' : ℕ) (r : Ray) :
    renderRay cfg nq nqFine samplePdf npStream torchT torchN torchNFine i r =
      renderRay cfg nq nqFine samplePdf npStream' torchT' torchN' torchNFine' i' r := by
  have hz : ∀ (np np' : ℕ → ℝ) (tT tT' : ℕ → ℕ → ℝ) (j j' : ℕ),
      coarseZ cfg np tT j r = coarseZ cfg np' tT' j' r := by
    intro np np' tT tT' j j'
    simp [coarseZ, hper]
  have hnoise : ∀ (np np' : ℕ → ℝ) (tN tN' : ℕ → ℕ → ℝ) (n j j' : ℕ),
      noiseAt cfg np tN n j = noiseAt cfg np' tN' n j' := by
    intro np np' tN tN' n j j'
    funext k
    simp [noiseAt, hstd]
  have hcn : ∀ (np np' : ℕ → ℝ) (tN tN' : ℕ → ℕ → ℝ) (j j' : ℕ),
      coarseNoise cfg np tN j = coarseNoise cfg np' tN' j' := by
    intro np np' tN tN' j j'
    simp only [coarseNoise]
    refine List.map_congr_left (fun k _ => ?_)
    simp [noiseAt, hstd]
  have hc : coarseComp cfg nq npStream torchT torchN i r =
      coarseComp cfg nq npStream' torchT' torchN' i' r := by
    rw [coarseComp, coarseComp, hz npStream npStream' torchT torchT' i i',
      hcn npStream npStream' torchN torchN' i i']
  rw [renderRay, renderRay, hc, hz npStream npStream' torchT torchT' i i']
  by_cases hM : cfg.Nimportance = 0
  · simp [hM]
  · simp only [if_neg hM]
    have hnf : ∀ (len : ℕ),
        (List.range len).map (fun j => noiseAt cfg npStream torchNFine len i j) =
        (List.range len).map (fun j => noiseAt cfg npStream' torchNFine' len i' j) := by
      intro len
      refine List.map_congr_left (fun k _ => ?_)
      simp [noiseAt, hstd]
    rw [hnf]

/-- C3: chunking is a pure partitioning. For the deterministic pipeline
(jitter off, zero noise std), rendering a ray batch through batchify_rays in
chunks of any positive size C gives exactly the same per-key outputs in the
same row order as rendering the whole batch at once, and the point-level
batchify with any positive netchunk leaves a row-wise network application
unchanged. -/
theorem batchify_rays_chunk_invariant (cfg : RenderCfg)
    (hper : cfg.perturb = false) (hstd : cfg.rawNoiseStd = 0)
    (C : ℕ) (hC : 0 < C)
    (nq nqFine : (ℝ × ℝ × ℝ) → (ℝ × ℝ × ℝ) → Raw4)
    (samplePdf : List ℝ → List ℝ → ℕ → Bool → List ℝ)
    (npStream : ℕ → ℝ) (torchT torchN torchNFine : ℕ → ℕ → ℝ)
    (rays : List Ray) {E F : Type} (netRow : E → F) (netchunk : ℕ)
    (hnc : 0 < netchunk) (points : List E) :
    batchify_rays C
        (render_rays cfg nq nqFine samplePdf npStream torchT torchN torchNFine)
        rays =
      render_rays cfg nq nqFine samplePdf npStream torchT torchN torchNFine rays ∧
    batchify (List.map netRow) netchunk points = points.map netRow := by
  constructor
  · have hmap : ∀ (xs : List Ray),
        render_rays cfg nq nqFine samplePdf npStream torchT torchN torchNFine xs =
          xs.map (renderRay cfg nq nqFine samplePdf npStream torchT torchN
            torchNFine 0) := by
      intro xs
      exact mapWithIndex_eq_map _ _
        (fun i x => renderRay_deterministic cfg hper hstd nq nqFine samplePdf
          npStream npStream torchT torchN torchNFine torchT torchN torchNFine i 0 x)
        0 xs
    rw [batchify_rays]
    rw [List.map_congr_left (fun chunk _ => hmap chunk)]
    rw [← List.map_flatten, chunksOf_flatten C hC, ← hmap]
  · exact batchify_map netRow netchunk hnc points

/-- Concrete ray used by the witnesses. -/
noncomputable def rayW : Ray := ⟨(0, 0, 0), (1, 0, 0), 0, 1, (1, 0, 0)⟩

/-- Concrete deterministic configuration used by the witnesses. -/
def cfgDetW : RenderCfg := ⟨2, false, false, 0, 0, false, false⟩

/-- Concrete pytest configuration used by the witnesses. -/
def cfgPyW : RenderCfg := ⟨2, false, true, 1, 1, false, true⟩

/-- Concrete constant network used by the witnesses. -/
noncomputable def nqW : (ℝ × ℝ × ℝ) → (ℝ × ℝ × ℝ) → Raw4 := fun _ _ => ((0, 0, 0), 0)

/-- Concrete resampler stub used by the witnesses. -/
def spdfW : List ℝ → List ℝ → ℕ → Bool → List ℝ := fun _ _ _ _ => [0]

/-- C3 witness: chunk invariance at a concrete two-ray batch with chunk size
one and a concrete three-point batch with netchunk two. -/
theorem batchify_rays_chunk_invariant_witness :
    (cfgDetW.perturb = false) ∧ (cfgDetW.rawNoiseStd = 0) ∧ (0 < 1) ∧ (0 < 2) ∧
    (batchify_rays 1
        (render_rays cfgDetW nqW nqW spdfW (fun _ => 0) (fun _ _ => 0)
          (fun _ _ => 0) (fun _ _ => 0))
        [rayW, rayW] =
      render_rays cfgDetW nqW nqW spdfW (fun _ => 0) (fun _ _ => 0)
        (fun _ _ => 0) (fun _ _ => 0) [rayW, rayW] ∧
    batchify (List.map (fun n : ℕ => n + 1)) 2 [1, 2, 3] =
      [1, 2, 3].map (fun n : ℕ => n + 1)) :=
  ⟨rfl, rfl, by norm_num, by norm_num,
    batchify_rays_chunk_invariant cfgDetW rfl rfl 1 (by norm_num) nqW nqW spdfW
      (fun _ => 0) (fun _ _ => 0) (fun _ _ => 0) (fun _ _ => 0) [rayW, rayW]
      (fun n : ℕ => n + 1) 2 (by norm_num) [1, 2, 3]⟩

theorem mapWithIndex_congr {α β : Type} (f g : ℕ → α → β)
    (hfg : ∀ i x, f i x = g i x) : ∀ (k : ℕ) (xs : List α),
    mapWithIndex f k xs = mapWithIndex g k xs := by
  intro k xs
  induction xs generalizing k with
  | nil => rfl
  | cons x l ih => simp [mapWithIndex, hfg, ih]

/-- With pytest on, renderRay reads its jitter and noise draws from the
seeded numpy stream only: the torch draws are ignored. -/
theorem renderRay_pytest (cfg : RenderCfg) (hpy : cfg.pytest = true)
    (nq nqFine : (ℝ × ℝ × ℝ) → (ℝ × ℝ × ℝ) → Raw4)
    (samplePdf : List ℝ → List ℝ → ℕ → Bool → List ℝ) (npStream : ℕ → ℝ)
    (torchT torchN torchNFine torchT' torchN' torchNFine' : ℕ → ℕ → ℝ)
    (i : ℕ) (r : Ray) :
    renderRay cfg nq nqFine samplePdf npStream torchT torchN torchNFine i r =
      renderRay cfg nq nqFine samplePdf npStream torchT' torchN' torchNFine' i r := by
  have ht : tRandAt cfg npStream torchT i = tRandAt cfg npStream torchT' i := by
    funext j
    simp [tRandAt, hpy]
  have hz : coarseZ cfg npStream torchT i r = coarseZ cfg npStream torchT' i r := by
    rw [coarseZ, coarseZ, ht]
  have hcn : coarseNoise cfg npStream torchN i = coarseNoise cfg npStream torchN' i := by
    simp [coarseNoise, noiseAt, hpy]
  have hc : coarseComp cfg nq npStream torchT torchN i r =
      coarseComp cfg nq npStream torchT' torchN' i r := by
    rw [coarseComp, coarseComp, hz, hcn]
  rw [renderRay, renderRay, hz, hc]
  by_cases hM : cfg.Nimportance = 0
  · simp [hM]
  · simp only [if_neg hM]
    have hnf : ∀ len : ℕ,
        (List.range len).map (fun j => noiseAt cfg npStream torchNFine len i j) =
        (List.range len).map (fun j => noiseAt cfg npStream torchNFine' len i j) := by
      intro len
      refine List.map_congr_left (fun k _ => ?_)
      simp [noiseAt, hpy]
    rw [hnf]

/-- C9: in deterministic-test mode (pytest = True) the stratified jitter and
density-noise draws are replaced by the reseeded numpy stream, so two runs of
render_rays on the same ray batch with the same network query function and
the same seeded numpy stream produce identical outputs regardless of the
torch random draws of each run. -/
theorem render_rays_pytest_two_run (cfg : RenderCfg) (hpy : cfg.pytest = true)
    (nq nqFine : (ℝ × ℝ × ℝ) → (ℝ × ℝ × ℝ) → Raw4)
    (samplePdf : List ℝ → List ℝ → ℕ → Bool → List ℝ) (npStream : ℕ → ℝ)
    (torchT torchN torchNFine torchT' torchN' torchNFine' : ℕ → ℕ → ℝ)
    (rays : List Ray) :
    render_rays cfg nq nqFine samplePdf npStream torchT torchN torchNFine rays =
      render_rays cfg nq nqFine samplePdf npStream torchT' torchN' torchNFine' rays := by
  rw [render_rays, render_rays]
  exact mapWithIndex_congr _ _
    (fun i r => renderRay_pytest cfg hpy nq nqFine samplePdf npStream
      torchT torchN torchNFine torchT' torchN' torchNFine' i r) 0 rays

/-- C9 witness: two-run determinism at a concrete pytest configuration with
jitter and noise enabled, a concrete ray, and two different torch streams. -/
theorem render_rays_pytest_two_run_witness :
    (cfgPyW.pytest = true) ∧
    render_rays cfgPyW nqW nqW spdfW (fun _ => 0) (fun _ _ => 0) (fun _ _ => 0)
        (fun _ _ => 0) [rayW] =
      render_rays cfgPyW nqW nqW spdfW (fun _ => 0) (fun _ _ => 1) (fun _ _ => 1)
        (fun _ _ => 1) [rayW] :=
  ⟨rfl, render_rays_pytest_two_run cfgPyW rfl nqW nqW spdfW (fun _ => 0)
    (fun _ _ => 0) (fun _ _ => 0) (fun _ _ => 0) (fun _ _ => 1) (fun _ _ => 1)
    (fun _ _ => 1) [rayW]⟩

theorem length_coarseZ (cfg : RenderCfg) (npStream : ℕ → ℝ)
    (torchT : ℕ → ℕ → ℝ) (i : ℕ) (r : Ray) :
    (coarseZ cfg npStream torchT i r).length = cfg.Nsamples := by
  simp [coarseZ]

theorem length_midsList (z : List ℝ) : (midsList z).length = z.length - 1 := by
  simp [midsList]

theorem length_interiorList (w : List ℝ) :
    (interiorList w).length = w.length - 2 := by
  simp [interiorList]
  omega

theorem getD_interiorList (w : List ℝ) (j : ℕ) (hj : j < w.length - 2) :
    (interiorList w).getD j 0 = w.getD (j + 1) 0 := by
  have h1 : j < w.tail.dropLast.length := by
    simp [List.length_tail]
    omega
  have h3 : j + 1 < w.length := by omega
  rw [interiorList, List.getD_eq_getElem _ _ h1, List.getElem_dropLast,
    List.getElem_tail, ← List.getD_eq_getElem _ _ h3]

/-- C5: when N_importance > 0, render_rays passes the coarse sample midpoints
(one fewer than the coarse sample count) and the interior coarse weights
(weights with the first and last samples dropped) to sample_pdf; the merged
depth sequence fed to the second network query and second compositing pass is
the ascending sort of the union of coarse and resampled depths; and the
coarse-pass color/disparity/opacity are retained unchanged as rgb0/disp0/acc0. -/
theorem render_rays_hierarchical (cfg : RenderCfg) (hM : cfg.Nimportance ≠ 0)
    (nq nqFine : (ℝ × ℝ × ℝ) → (ℝ × ℝ × ℝ) → Raw4)
    (samplePdf : List ℝ → List ℝ → ℕ → Bool → List ℝ)
    (npStream : ℕ → ℝ) (torchT torchN torchNFine : ℕ → ℕ → ℝ)
    (i : ℕ) (r : Ray) :
    ∀ out base : RayOut, ∀ z zs : List ℝ,
    out = renderRay cfg nq nqFine samplePdf npStream torchT torchN torchNFine i r →
    base = renderRay {cfg with Nimportance := 0} nq nqFine samplePdf npStream
      torchT torchN torchNFine i r →
    z = coarseZ cfg npStream torchT i r →
    zs = samplePdf (midsList z) (interiorList base.weights) cfg.Nimportance
      (!cfg.perturb) →
    out.rgb0 = some base.rgb ∧ out.disp0 = some base.disp ∧
    out.acc0 = some base.acc ∧
    (midsList z).length = cfg.Nsamples - 1 ∧
    (interiorList base.weights).length = base.weights.length - 2 ∧
    (∀ j, j < base.weights.length - 2 →
      (interiorList base.weights).getD j 0 = base.weights.getD (j + 1) 0) ∧
    List.Sorted (· ≤ ·) (mergedZ z zs) ∧ (mergedZ z zs).Perm (z ++ zs) ∧
    out.rgb = (raw2outputs
      ((mergedZ z zs).map (fun zv => nqFine (ptAt r zv) r.viewdir))
      (mergedZ z zs) r.d
      ((List.range (mergedZ z zs).length).map
        (fun j => noiseAt cfg npStream torchNFine (mergedZ z zs).length i j))
      cfg.whiteBkgd).1 := by
  intro out base z zs hout hbase hz hzs
  subst hout hbase hz hzs
  simp only [renderRay, if_neg hM]
  refine ⟨rfl, rfl, rfl, ?_, ?_, ?_, ?_, ?_, rfl⟩
  · rw [length_midsList, length_coarseZ]
  · exact length_interiorList _
  · exact fun j hj => getD_interiorList _ j hj
  · exact List.sorted_insertionSort _ _
  · exact List.perm_insertionSort _ _

/-- C5 witness: the hierarchical-stage theorem instantiated at the concrete
pytest configuration (one importance sample), constant network and resampler
stub, ray index zero. -/
theorem render_rays_hierarchical_witness :
    (cfgPyW.Nimportance ≠ 0) ∧
    ((renderRay cfgPyW nqW nqW spdfW (fun _ => 0) (fun _ _ => 0) (fun _ _ => 0)
        (fun _ _ => 0) 0 rayW).rgb0 =
      some ((renderRay {cfgPyW with Nimportance := 0} nqW nqW spdfW (fun _ => 0)
        (fun _ _ => 0) (fun _ _ => 0) (fun _ _ => 0) 0 rayW).rgb) ∧
    (renderRay cfgPyW nqW nqW spdfW (fun _ => 0) (fun _ _ => 0) (fun _ _ => 0)
        (fun _ _ => 0) 0 rayW).disp0 =
      some ((renderRay {cfgPyW with Nimportance := 0} nqW nqW spdfW (fun _ => 0)
        (fun _ _ => 0) (fun _ _ => 0) (fun _ _ => 0) 0 rayW).disp) ∧
    (renderRay cfgPyW nqW nqW spdfW (fun _ => 0) (fun _ _ => 0) (fun _ _ => 0)
        (fun _ _ => 0) 0 rayW).acc0 =
      some ((renderRay {cfgPyW with Nimportance := 0} nqW nqW spdfW (fun _ => 0)
        (fun _ _ => 0) (fun _ _ => 0) (fun _ _ => 0) 0 rayW).acc) ∧
    (midsList (coarseZ cfgPyW (fun _ => 0) (fun _ _ => 0) 0 rayW)).length =
      cfgPyW.Nsamples - 1 ∧
    (interiorList ((renderRay {cfgPyW with Nimportance := 0} nqW nqW spdfW
        (fun _ => 0) (fun _ _ => 0) (fun _ _ => 0) (fun _ _ => 0) 0
        rayW).weights)).length =
      ((renderRay {cfgPyW with Nimportance := 0} nqW nqW spdfW (fun _ => 0)
        (fun _ _ => 0) (fun _ _ => 0) (fun _ _ => 0) 0 rayW).weights).length - 2 ∧
    (∀ j, j < ((renderRay {cfgPyW with Nimportance := 0} nqW nqW spdfW
        (fun _ => 0) (fun _ _ => 0) (fun _ _ => 0) (fun _ _ => 0) 0
        rayW).weights).length - 2 →
      (interiorList ((renderRay {cfgPyW with Nimportance := 0} nqW nqW spdfW
        (fun _ => 0) (fun _ _ => 0) (fun _ _ => 0) (fun _ _ => 0) 0
        rayW).weights)).getD j 0 =
      ((renderRay {cfgPyW with Nimportance := 0} nqW nqW spdfW (fun _ => 0)
        (fun _ _ => 0) (fun _ _ => 0) (fun _ _ => 0) 0
        rayW).weights).getD (j + 1) 0) ∧
    List.Sorted (· ≤ ·) (mergedZ (coarseZ cfgPyW (fun _ => 0) (fun _ _ => 0) 0 rayW)
      (spdfW (midsList (coarseZ cfgPyW (fun _ => 0) (fun _ _ => 0) 0 rayW))
        (interiorList ((renderRay {cfgPyW with Nimportance := 0} nqW nqW spdfW
          (fun _ => 0) (fun _ _ => 0) (fun _ _ => 0) (fun _ _ => 0) 0
          rayW).weights)) cfgPyW.Nimportance (!cfgPyW.perturb))) ∧
    (mergedZ (coarseZ cfgPyW (fun _ => 0) (fun _ _ => 0) 0 rayW)
      (spdfW (midsList (coarseZ cfgPyW (fun _ => 0) (fun _ _ => 0) 0 rayW))
        (interiorList ((renderRay {cfgPyW with Nimportance := 0} nqW nqW spdfW
          (fun _ => 0) (fun _ _ => 0) (fun _ _ => 0) (fun _ _ => 0) 0
          rayW).weights)) cfgPyW.Nimportance (!cfgPyW.perturb))).Perm
      ((coarseZ cfgPyW (fun _ => 0) (fun _ _ => 0) 0 rayW) ++
        (spdfW (midsList (coarseZ cfgPyW (fun _ => 0) (fun _ _ => 0) 0 rayW))
          (interiorList ((renderRay {cfgPyW with Nimportance := 0} nqW nqW spdfW
            (fun _ => 0) (fun _ _ => 0) (fun _ _ => 0) (fun _ _ => 0) 0
            rayW).weights)) cfgPyW.Nimportance (!cfgPyW.perturb))) ∧
    (renderRay cfgPyW nqW nqW spdfW (fun _ => 0) (fun _ _ => 0) (fun _ _ => 0)
        (fun _ _ => 0) 0 rayW).rgb = (raw2outputs
      ((mergedZ (coarseZ cfgPyW (fun _ => 0) (fun _ _ => 0) 0 rayW)
        (spdfW (midsList (coarseZ cfgPyW (fun _ => 0) (fun _ _ => 0) 0 rayW))
          (interiorList ((renderRay {cfgPyW with Nimportance := 0} nqW nqW spdfW
            (fun _ => 0) (fun _ _ => 0) (fun _ _ => 0) (fun _ _ => 0) 0
            rayW).weights)) cfgPyW.Nimportance (!cfgPyW.perturb))).map
        (fun zv => nqW (ptAt rayW zv) rayW.viewdir))
      (mergedZ (coarseZ cfgPyW (fun _ => 0) (fun _ _ => 0) 0 rayW)
        (spdfW (midsList (coarseZ cfgPyW (fun _ => 0) (fun _ _ => 0) 0 rayW))
          (interiorList ((renderRay {cfgPyW with Nimportance := 0} nqW nqW spdfW
            (fun _ => 0) (fun _ _ => 0) (fun _ _ => 0) (fun _ _ => 0) 0
            rayW).weights)) cfgPyW.Nimportance (!cfgPyW.perturb))) rayW.d
      ((List.range (mergedZ (coarseZ cfgPyW (fun _ => 0) (fun _ _ => 0) 0 rayW)
        (spdfW (midsList (coarseZ cfgPyW (fun _ => 0) (fun _ _ => 0) 0 rayW))
          (interiorList ((renderRay {cfgPyW with Nimportance := 0} nqW nqW spdfW
            (fun _ => 0) (fun _ _ => 0) (fun _ _ => 0) (fun _ _ => 0) 0
            rayW).weights)) cfgPyW.Nimportance (!cfgPyW.perturb))).length).map
        (fun j => noiseAt cfgPyW (fun _ => 0) (fun _ _ => 0)
          (mergedZ (coarseZ cfgPyW (fun _ => 0) (fun _ _ => 0) 0 rayW)
            (spdfW (midsList (coarseZ cfgPyW (fun _ => 0) (fun _ _ => 0) 0 rayW))
              (interiorList ((renderRay {cfgPyW with Nimportance := 0} nqW nqW
                spdfW (fun _ => 0) (fun _ _ => 0) (fun _ _ => 0) (fun _ _ => 0) 0
                rayW).weights)) cfgPyW.Nimportance (!cfgPyW.perturb))).length 0 j))
      cfgPyW.whiteBkgd).1) :=
  ⟨by decide,
    render_rays_hierarchical cfgPyW (by decide) nqW nqW spdfW (fun _ => 0)
      (fun _ _ => 0) (fun _ _ => 0) (fun _ _ => 0) 0 rayW _ _ _ _ rfl rfl rfl rfl⟩

/-! ## Adaptive ray sampler: pixel-selection policies of train
(run_nerf.py, lines 963-1005).  Every operation here is order, floor and
field arithmetic on float values, embedded over the rationals. -/

/-- Python float modulo, the semantics of % on torch float tensors:
x - m * floor(x / m), the result carrying the sign of the divisor. -/
def fmodQ (x m : ℚ) : ℚ := x - m * ⌊x / m⌋

/-- torch.round: round half to even (banker's rounding). -/
def roundEven (x : ℚ) : ℤ :=
  if Int.fract x = 1 / 2 then (if ⌊x⌋ % 2 = 0 then ⌊x⌋ else ⌊x⌋ + 1)
  else round x

/-- One proposed Metropolis-Hastings pixel: the Gaussian-walk offset g added
to the current pixel, the row wrapped modulo H-1 and the column modulo W-1,
then rounded to integer indices, exactly
torch.round((prev + normal) % (H-1, W-1)).long(). -/
def mhPropose (H W : ℕ) (prev : ℤ × ℤ) (g : ℚ × ℚ) : ℤ × ℤ :=
  (roundEven (fmodQ ((prev.1 : ℚ) + g.1) ((H : ℚ) - 1)),
   roundEven (fmodQ ((prev.2 : ℚ) + g.2) ((W : ℚ) - 1)))

/-- Acceptance test of the source: accept = rand <= next_heat/(prev_heat + 1e-7). -/
def mhAccept (pm : ℤ × ℤ → ℚ) (prev next : ℤ × ℤ) (u : ℚ) : Bool :=
  decide (u ≤ pm next / (pm prev + 1e-7))

/-- Acceptance rule as the specification words it: the independent uniform
draw is at most min(1, prob(new)/prob(old)). -/
def mhAcceptSpec (pm : ℤ × ℤ → ℚ) (prev next : ℤ × ℤ) (u : ℚ) : Bool :=
  decide (u ≤ min 1 (pm next / pm prev))

/-- One per-pixel Metropolis-Hastings step, torch.where(accept, next, prev):
an accepted proposal replaces the current pixel, a rejected one keeps the old
coordinate. -/
def mhStepPixel (H W : ℕ) (pm : ℤ × ℤ → ℚ) (prev : ℤ × ℤ) (g : ℚ × ℚ)
    (u : ℚ) : ℤ × ℤ :=
  if mhAccept pm prev (mhPropose H W prev g) u then mhPropose H W prev g else prev

/-- The metropolis-hastings selection branch: when the stored previous sample
sums to zero (the no-prior-state test of the source) the uniform
without-replacement seed draw is returned and stored; otherwise every pixel
takes one independent accept/reject step. -/
def mhSelect (H W : ℕ) (pm : ℤ × ℤ → ℚ) (prevs : List (ℤ × ℤ))
    (gs : List (ℚ × ℚ)) (us : List ℚ) (seed : List (ℤ × ℤ)) : List (ℤ × ℤ) :=
  if (prevs.map (fun c => c.1 + c.2)).sum = 0 then seed
  else List.zipWith (fun p gu => mhStepPixel H W pm p gu.1 gu.2) prevs (gs.zip us)

/-- C7 counterexample: with probability-map value 1e-7 at both the current
and the proposed pixel and uniform draw 9/10, the claim's rule
min(1, prob(new)/prob(old)) accepts (the ratio is 1), but the code's test
u <= prob(new)/(prob(old) + 1e-7) compares 9/10 against 1/2 and rejects; and
with an all-zero probability map a zero-probability proposal is accepted when
the uniform draw is exactly 0, so such proposals are not never-accepted. -/
theorem mh_accept_rule_differs :
    mhAcceptSpec (fun _ => 1e-7) (0, 0) (mhPropose 3 3 (0, 0) (0, 0)) (9 / 10) = true ∧
    mhAccept (fun _ => 1e-7) (0, 0) (mhPropose 3 3 (0, 0) (0, 0)) (9 / 10) = false ∧
    mhAccept (fun _ => 0) (0, 0) (mhPropose 3 3 (0, 0) (0, 0)) 0 = true := by
  have hprop : mhPropose 3 3 (0, 0) (0, 0) = (0, 0) := by
    unfold mhPropose fmodQ roundEven
    norm_num
  rw [hprop]
  refine ⟨?_, ?_, ?_⟩
  · rw [mhAcceptSpec, decide_eq_true_eq]
    norm_num
  · rw [mhAccept, decide_eq_false_iff_not]
    norm_num
  · rw [mhAccept, decide_eq_true_eq]
    norm_num

/-- C7 (amended): the policy seeds from the uniform without-replacement draw
exactly when the stored state sums to zero; otherwise each pixel is proposed
by the wrapped rounded Gaussian walk and accepted iff the independent uniform
draw is at most prob(new)/(prob(old) + 1e-7) (not min(1, prob(new)/prob(old))),
the accepted proposal replacing the pixel and a rejected one keeping the old
coordinate; a proposal with probability-map value zero is rejected whenever
the uniform draw is positive, but accepted when the draw is exactly zero. -/
theorem mh_policy (H W : ℕ) (pm : ℤ × ℤ → ℚ) :
    (∀ (prevs : List (ℤ × ℤ)) (gs : List (ℚ × ℚ)) (us : List ℚ)
      (seed : List (ℤ × ℤ)), (prevs.map (fun c => c.1 + c.2)).sum = 0 →
      mhSelect H W pm prevs gs us seed = seed) ∧
    (∀ (prevs : List (ℤ × ℤ)) (gs : List (ℚ × ℚ)) (us : List ℚ)
      (seed : List (ℤ × ℤ)), (prevs.map (fun c => c.1 + c.2)).sum ≠ 0 →
      mhSelect H W pm prevs gs us seed =
        List.zipWith (fun p gu => mhStepPixel H W pm p gu.1 gu.2) prevs (gs.zip us)) ∧
    (∀ (p : ℤ × ℤ) (g : ℚ × ℚ) (u : ℚ),
      mhStepPixel H W pm p g u =
        if u ≤ pm (mhPropose H W p g) / (pm p + 1e-7) then mhPropose H W p g else p) ∧
    (∀ (p : ℤ × ℤ) (g : ℚ × ℚ) (u : ℚ), pm (mhPropose H W p g) = 0 →
      0 ≤ pm p → 0 < u → mhStepPixel H W pm p g u = p) ∧
    (∀ (p : ℤ × ℤ) (g : ℚ × ℚ), pm (mhPropose H W p g) = 0 →
      0 ≤ pm p → mhStepPixel H W pm p g 0 = mhPropose H W p g) := by
  refine ⟨?_, ?_, ?_, ?_, ?_⟩
  · intro prevs gs us seed h0
    rw [mhSelect, if_pos h0]
  · intro prevs gs us seed h0
    rw [mhSelect, if_neg h0]
  · intro p g u
    rw [mhStepPixel, mhAccept]
    by_cases h : u ≤ pm (mhPropose H W p g) / (pm p + 1e-7)
    · rw [if_pos h, if_pos (by simpa using h)]
    · rw [if_neg h, if_neg (by simpa using h)]
  · intro p g u hz hnn hu
    have hratio : pm (mhPropose H W p g) / (pm p + 1e-7) = 0 := by
      rw [hz, zero_div]
    rw [mhStepPixel, mhAccept, hratio]
    rw [if_neg (by simpa using not_le.mpr hu)]
  · intro p g hz hnn
    have hratio : pm (mhPropose H W p g) / (pm p + 1e-7) = 0 := by
      rw [hz, zero_div]
    rw [mhStepPixel, mhAccept, hratio]
    simp

/-- C7 witness: the amended policy theorem applied at concrete state: the
all-zero stored state returns the seed, and with an all-zero probability map
a concrete step with positive draw keeps the old pixel. -/
theorem mh_policy_witness :
    mhSelect 3 3 (fun _ => 0) [((0 : ℤ), (0 : ℤ))] [(0, 0)] [1 / 2] [(1, 1)] =
      [(1, 1)] ∧
    mhStepPixel 3 3 (fun _ => 0) (1, 1) (0, 0) (1 / 2) = (1, 1) :=
  ⟨(mh_policy 3 3 (fun _ => 0)).1 [(0, 0)] [(0, 0)] [1 / 2] [(1, 1)] (by decide),
   (mh_policy 3 3 (fun _ => 0)).2.2.2.1 (1, 1) (0, 0) (1 / 2) rfl (le_refl 0)
     (by norm_num)⟩

theorem fmodQ_bounds (x m : ℚ) (hm : 0 < m) : 0 ≤ fmodQ x m ∧ fmodQ x m < m := by
  have heq : fmodQ x m = m * Int.fract (x / m) := by
    rw [fmodQ, Int.fract]
    field_simp
  rw [heq]
  constructor
  · exact mul_nonneg (le_of_lt hm) (Int.fract_nonneg _)
  · have hlt := mul_lt_mul_of_pos_left (Int.fract_lt_one (x / m)) hm
    linarith

theorem roundEven_bounds (x : ℚ) : ⌊x⌋ ≤ roundEven x ∧ roundEven x ≤ ⌊x⌋ + 1 := by
  rw [roundEven]
  by_cases hf : Int.fract x = 1 / 2
  · rw [if_pos hf]
    by_cases he : ⌊x⌋ % 2 = 0
    · rw [if_pos he]
      omega
    · rw [if_neg he]
      omega
  · rw [if_neg hf, round_eq]
    have h1 : (⌊x⌋ : ℚ) ≤ x := Int.floor_le x
    have h2 : x < ⌊x⌋ + 1 := Int.lt_floor_add_one x
    constructor
    · apply Int.le_floor.mpr
      linarith
    · have hlt : x + 1 / 2 < ((⌊x⌋ + 2 : ℤ) : ℚ) := by
        push_cast
        linarith
      have hfl := Int.floor_lt.mpr hlt
      omega

/-- C10: for any current pixel and any real-valued Gaussian-walk offset, the
proposed coordinates after wrapping modulo (H-1, W-1) and rounding satisfy
0 <= row <= H-1 and 0 <= column <= W-1, so indexing the H-by-W probability
map, ray grids and target image with them never goes out of bounds. -/
theorem mh_propose_in_bounds (H W : ℕ) (hH : 2 ≤ H) (hW : 2 ≤ W)
    (prev : ℤ × ℤ) (g : ℚ × ℚ) :
    0 ≤ (mhPropose H W prev g).1 ∧ (mhPropose H W prev g).1 ≤ (H : ℤ) - 1 ∧
    0 ≤ (mhPropose H W prev g).2 ∧ (mhPropose H W prev g).2 ≤ (W : ℤ) - 1 := by
  have key : ∀ (n : ℕ) (y : ℚ), 2 ≤ n →
      0 ≤ roundEven (fmodQ y ((n : ℚ) - 1)) ∧
      roundEven (fmodQ y ((n : ℚ) - 1)) ≤ (n : ℤ) - 1 := by
    intro n y hn
    have hmpos : (0 : ℚ) < (n : ℚ) - 1 := by
      have : (2 : ℚ) ≤ (n : ℚ) := by exact_mod_cast hn
      linarith
    obtain ⟨hf0, hf1⟩ := fmodQ_bounds y ((n : ℚ) - 1) hmpos
    obtain ⟨hr0, hr1⟩ := roundEven_bounds (fmodQ y ((n : ℚ) - 1))
    have hfl0 : 0 ≤ ⌊fmodQ y ((n : ℚ) - 1)⌋ := Int.floor_nonneg.mpr hf0
    have hfl1 : ⌊fmodQ y ((n : ℚ) - 1)⌋ < (n : ℤ) - 1 := by
      apply Int.floor_lt.mpr
      push_cast
      linarith
    omega
  obtain ⟨h1, h2⟩ := key H ((prev.1 : ℚ) + g.1) hH
  obtain ⟨h3, h4⟩ := key W ((prev.2 : ℚ) + g.2) hW
  exact ⟨h1, h2, h3, h4⟩

/-- C10 witness: in-bounds proposal at a concrete 5x4 grid, an out-of-center
current pixel and a concrete fractional offset. -/
theorem mh_propose_in_bounds_witness :
    (2 ≤ 5) ∧ (2 ≤ 4) ∧
    (0 ≤ (mhPropose 5 4 (3, 1) (27 / 10, -7 / 2)).1 ∧
     (mhPropose 5 4 (3, 1) (27 / 10, -7 / 2)).1 ≤ (5 : ℤ) - 1 ∧
     0 ≤ (mhPropose 5 4 (3, 1) (27 / 10, -7 / 2)).2 ∧
     (mhPropose 5 4 (3, 1) (27 / 10, -7 / 2)).2 ≤ (4 : ℤ) - 1) :=
  ⟨by norm_num, by norm_num,
    mh_propose_in_bounds 5 4 (by norm_num) (by norm_num) (3, 1) (27 / 10, -7 / 2)⟩

/-! ## Adaptive ray sampler: rejection policy (train, lines 963-983) -/

/-- Row-major pixel coordinates of the H x W grid (torch.where order). -/
def gridCoords (H W : ℕ) : List (ℕ × ℕ) :=
  ((List.range H).map (fun i => (List.range W).map (fun j => (i, j)))).flatten

/-- prob_map[img_i].sum(). -/
def pmSum (H W : ℕ) (pm : ℕ × ℕ → ℚ) : ℚ := ((gridCoords H W).map pm).sum

/-- Accepted pixels of one draw: rand_image = torch.rand(H, W) *
prob_map.sum(), pinds = where(rand_image < prob_map), in row-major order. -/
def acceptedPixels (H W : ℕ) (pm : ℕ × ℕ → ℚ) (u : ℕ × ℕ → ℚ) :
    List (ℕ × ℕ) :=
  (gridCoords H W).filter (fun c => decide (u c * pmSum H W pm < pm c))

/-- The rejection-sampling while loop of the source.  draws k is the uniform
field of attempt k; sub k l models np.random.choice picking k elements of l
without replacement (the branch taken when more pixels were accepted than
still needed); fallback is the value of the Python variable `coords` at the
fall-back (line 980) together with its uniform subsample of N_rand entries:
it is none when `coords` was never assigned before, in which case the
fall-back raises NameError, modeled as a none result. -/
def rejectionLoop (Nrand H W : ℕ) (pm : ℕ × ℕ → ℚ) (draws : ℕ → ℕ × ℕ → ℚ)
    (sub : ℕ → List (ℕ × ℕ) → List (ℕ × ℕ)) (fallback : Option (List (ℕ × ℕ)))
    (num counter : ℕ) (acc : List (ℕ × ℕ)) : Option (List (ℕ × ℕ)) :=
  if hn : num < Nrand then
    let pinds := acceptedPixels H W pm (draws (counter + 1))
    let pinds2 := if Nrand - num < pinds.length then sub (Nrand - num) pinds
      else pinds
    let acc2 := if pinds.length ≠ 0 then acc ++ pinds2 else acc
    let num2 := if pinds.length ≠ 0 then num + pinds2.length else num
    if hc : 1000 < counter + 1 then
      match fallback with
      | none => none
      | some cs =>
          rejectionLoop Nrand H W pm draws sub fallback (num2 + Nrand)
            (counter + 1) cs
    else rejectionLoop Nrand H W pm draws sub fallback num2 (counter + 1) acc2
  else some acc
termination_by (1001 - counter) + (if num < Nrand then 1 else 0)
decreasing_by
  · split_ifs <;> omega
  · split_ifs <;> omega

theorem acceptedPixels_zero (H W : ℕ) (u : ℕ × ℕ → ℚ) :
    acceptedPixels H W (fun _ => 0) u = [] := by
  have hs : pmSum H W (fun _ => 0) = 0 := by
    simp [pmSum]
  rw [acceptedPixels, hs]
  simp

theorem rejectionLoop_allzero (Nrand H W : ℕ) (draws : ℕ → ℕ × ℕ → ℚ)
    (sub : ℕ → List (ℕ × ℕ) → List (ℕ × ℕ)) :
    ∀ (k counter num : ℕ) (acc : List (ℕ × ℕ)), counter + k = 1001 →
    num < Nrand →
    rejectionLoop Nrand H W (fun _ => 0) draws sub none num counter acc =
      none := by
  intro k
  induction k with
  | zero =>
      intro counter num acc hk hnum
      have hc : 1000 < counter + 1 := by omega
      rw [rejectionLoop]
      rw [dif_pos hnum, dif_pos hc]
  | succ m ih =>
      intro counter num acc hk hnum
      rw [rejectionLoop]
      rw [dif_pos hnum]
      by_cases hc : 1000 < counter + 1
      · rw [dif_pos hc]
      · rw [dif_neg hc]
        simp only [acceptedPixels_zero, List.length_nil, ne_eq,
          not_true_eq_false, if_false]
        exact ih (counter + 1) num acc (by omega) hnum

/-- C8: with an all-zero probability map no pixel is ever accepted, and on
budget exhaustion the fall-back references the Python variable `coords`,
which with precrop_iters = 0 (the default) and sampling_type "rejection" was
never assigned: the loop reaches the fall-back after 1001 draws and raises
NameError instead of returning N_rand coordinate pairs. -/
theorem rejection_fallback_crash :
    rejectionLoop 1 4 4 (fun _ => 0) (fun _ _ => 0) (fun _ l => l) none 0 0 [] =
      none :=
  rejectionLoop_allzero 1 4 4 (fun _ _ => 0) (fun _ l => l) 1001 0 0 []
    (by norm_num) (by norm_num)
